import Mathlib

/-!
Verification of behavioural claims about the Kapowarr comic-library manager.

The Python sources are shallowly embedded: every definition below mirrors a
function of the repository (the module and function are named in its doc
comment).  Machine floats that in the source only ever hold issue numbers and
simple fractions are modelled as rationals; Python `int` is modelled by `Int`;
fallible code returns `Except`; stateful code (the Transmission stall tracker,
the scan accounting) is modelled by explicit state passing.  Functions of the
repository that are imported from files absent from the corpus
(`make_filename_safe`, `generate_image_name` internals, the settings store, the
database) appear as explicit oracle parameters of the embeddings, constrained
only where a claim needs the guarantee the missing code provides.
-/

namespace Kapowarr

/-! ## Python primitives: characters and strings -/

/-- Python `str.lower` restricted to ASCII, which is all the embedded code
feeds it. -/
def pyLower (s : String) : String :=
  String.mk (s.data.map Char.toLower)

/-- A word character in the sense of the `re` module's `\w` (ASCII part). -/
def isWordChar (c : Char) : Bool :=
  c.isAlphanum || c = '_'

/-- A whitespace character in the sense of the `re` module's `\s`. -/
def isSpaceChar (c : Char) : Bool :=
  c = ' ' || c = '\t' || c = '\n' || c = '\r' || c = '\x0b' || c = '\x0c'

/-- Is `needle` a contiguous sublist of `hay`?  Models Python's `in` on
strings. -/
def isSubList (needle hay : List Char) : Bool :=
  (List.range (hay.length + 1)).any (fun i => needle.isPrefixOf (hay.drop i))

/-- Python `str.startswith` (and the `b.startswith(sep)` check of
`posixpath.join`). -/
def pyStartsWith (s pre : String) : Bool :=
  pre.data.isPrefixOf s.data

/-- Python `str.endswith` for one suffix. -/
def pyEndsWith (s suf : String) : Bool :=
  suf.data.isSuffixOf s.data

/-- Python `str.split(" ")` (splitting at every single space, keeping empty
pieces). -/
def splitOnCharGo (c : Char) : List Char → List Char → List (List Char)
  | [], acc => [acc.reverse]
  | x :: xs, acc =>
    if x = c then acc.reverse :: splitOnCharGo c xs []
    else splitOnCharGo c xs (x :: acc)

/-- Python `str.split(" ")`. -/
def pySplitSpace (s : String) : List String :=
  (splitOnCharGo ' ' s.data []).map String.mk

/-! ## backend/implementations/matching.py -/

namespace Matching

/-- Does one of the characters before the cursor (given reversed) end a word,
such that a word-initial alternative like `\bthe` may match here?  The
following character of all such alternatives is a letter, so the position is a
word boundary exactly when the preceding character is absent or not a word
character. -/
def boundaryBefore (prevRev : List Char) : Bool :=
  match prevRev.head? with
  | none => true
  | some c => !isWordChar c

/-- Is there a word boundary right after the first `k` characters of `rest`?
Used after literals that end in a letter. -/
def boundaryAfterAt (rest : List Char) (k : Nat) : Bool :=
  match (rest.drop k).head? with
  | none => true
  | some c => !isWordChar c

/-- Is the character at offset `k` of `rest` a `\s` whitespace character? -/
def isSpaceAt (rest : List Char) (k : Nat) : Bool :=
  match (rest.drop k).head? with
  | none => false
  | some c => isSpaceChar c

/-- Matcher for the `\bone[\-\s]?shot\b` and `\bhard[\-\s]?cover\b`
alternatives of `clean_title_regex`: two word literals joined by an optional
hyphen or whitespace, the whole flanked by word boundaries (the boundary on
the left is checked by the caller).  Returns the number of characters
consumed. -/
def tryHyphenWord (w1 w2 : List Char) (rest : List Char) : Option Nat :=
  if w1.isPrefixOf rest then
    let r1 := rest.drop w1.length
    match r1.head? with
    | none => none
    | some c =>
      if (c = '-' || isSpaceChar c)
          && w2.isPrefixOf (r1.drop 1)
          && boundaryAfterAt (r1.drop 1) w2.length then
        some (w1.length + 1 + w2.length)
      else if w2.isPrefixOf r1 && boundaryAfterAt r1 w2.length then
        some (w1.length + w2.length)
      else none
  else none

/-- One attempt of `clean_title_regex` at the current position: the
alternatives are tried in the order they appear in the pattern
`((?<=annual)s|/|\-|–|\+|,|\.|\!|:|\bthe\s|\band\b|&|’|\x27|\x22|\bone[\-\s]?shot\b|\bhard[\-\s]?cover\b|\bomnibus\b|\btpb\b)`
from `backend/implementations/matching.py`.  `prevRev` is the already-scanned
text, reversed, used for the look-behind and the word boundaries.  Returns how
many characters the match consumes. -/
def tryNoise (prevRev rest : List Char) : Option Nat :=
  if prevRev.take 6 = ['l', 'a', 'u', 'n', 'n', 'a'] && rest.head? = some 's' then
    some 1
  else if rest.head? = some '/' then some 1
  else if rest.head? = some '-' then some 1
  else if rest.head? = some '–' then some 1
  else if rest.head? = some '+' then some 1
  else if rest.head? = some ',' then some 1
  else if rest.head? = some '.' then some 1
  else if rest.head? = some '!' then some 1
  else if rest.head? = some ':' then some 1
  else if boundaryBefore prevRev && ['t', 'h', 'e'].isPrefixOf rest
      && isSpaceAt rest 3 then
    some 4
  else if boundaryBefore prevRev && ['a', 'n', 'd'].isPrefixOf rest
      && boundaryAfterAt rest 3 then
    some 3
  else if rest.head? = some '&' then some 1
  else if rest.head? = some '’' then some 1
  else if rest.head? = some (Char.ofNat 39) then some 1
  else if rest.head? = some (Char.ofNat 34) then some 1
  else if boundaryBefore prevRev then
    match tryHyphenWord ['o', 'n', 'e'] ['s', 'h', 'o', 't'] rest with
    | some n => some n
    | none =>
      match tryHyphenWord ['h', 'a', 'r', 'd'] ['c', 'o', 'v', 'e', 'r'] rest with
      | some n => some n
      | none =>
        if ['o', 'm', 'n', 'i', 'b', 'u', 's'].isPrefixOf rest
            && boundaryAfterAt rest 7 then
          some 7
        else if ['t', 'p', 'b'].isPrefixOf rest && boundaryAfterAt rest 3 then
          some 3
        else none
  else none

/-- The scan loop of `re.sub(clean_title_regex, "", text)`: at each position
try the pattern; on a match drop the matched characters and continue after
them, otherwise keep the character and advance.  `fuel` bounds the recursion;
`rest.length` is always enough because every match consumes at least one
character. -/
def cleanSubGo : Nat → List Char → List Char → List Char
  | 0, _, rest => rest
  | _ + 1, _, [] => []
  | fuel + 1, prevRev, c :: rs =>
    match tryNoise prevRev (c :: rs) with
    | some n =>
      cleanSubGo fuel (((c :: rs).take n).reverse ++ prevRev) ((c :: rs).drop n)
    | none => c :: cleanSubGo fuel (c :: prevRev) rs

/-- The title normalisation of `match_title`
(`backend/implementations/matching.py`): lowercase, delete every match of
`clean_title_regex`, then delete the spaces. -/
def cleanTitle (s : String) : String :=
  let low := s.data.map Char.toLower
  String.mk ((cleanSubGo low.length [] low).filter (fun c => c ≠ ' '))

/-- Embedding of `match_title(title1, title2, allow_contains)` from
`backend/implementations/matching.py`. -/
def match_title (title1 title2 : String) (allow_contains : Bool) : Bool :=
  let clean_reference_title := cleanTitle title1
  let clean_title := cleanTitle title2
  if allow_contains then
    isSubList clean_title.data clean_reference_title.data
  else
    clean_reference_title == clean_title

/-- Embedding of `match_year(reference_year, check_year, end_year,
conservative)` from `backend/implementations/matching.py`.  The Python
`end_year or reference_year` falls back to `reference_year` both when
`end_year` is `None` and when it is the falsy `0`. -/
def match_year (reference_year check_year end_year : Option ℤ)
    (conservative : Bool) : Bool :=
  match reference_year, check_year with
  | some ref, some chk =>
    let end_border : ℤ :=
      match end_year with
      | some e => if e ≠ 0 then e else ref
      | none => ref
    decide (ref - 1 ≤ chk ∧ chk ≤ end_border + 1)
  | _, _ => conservative

end Matching

/-! ## backend/base/helpers.py -/

namespace Helpers

/-- Code-point comparison of strings, as Python compares `str` values. -/
def strLeAux : List Char → List Char → Bool
  | [], _ => true
  | _ :: _, [] => false
  | a :: as, b :: bs => if a = b then strLeAux as bs else decide (a.val ≤ b.val)

/-- Python `a <= b` on strings. -/
def strLe (a b : String) : Bool :=
  strLeAux a.data b.data

/-- Insert into an already sorted list, after equal elements, as Python's
stable sort would. -/
def insertSorted (x : String) : List String → List String
  | [] => [x]
  | y :: ys => if strLe y x then y :: insertSorted x ys else x :: y :: ys

/-- Python `sorted` on a list of strings (insertion sort; the order produced
agrees with any stable comparison sort). -/
def pySorted : List String → List String
  | [] => []
  | x :: xs => insertSorted x (pySorted xs)

/-- A Python `dict` as an insertion-ordered association list: assignment
replaces the value of an existing key in place, otherwise appends. -/
def pyDictSet {α : Type} (d : List (String × α)) (k : String) (v : α) :
    List (String × α) :=
  if d.any (fun p => p.1 == k) then
    d.map (fun p => if p.1 == k then (k, v) else p)
  else
    d ++ [(k, v)]

/-- A mapping used as a `DictKeyedDict` key: the field names paired with the
`str()` images of their values. -/
abbrev DictKey : Type := List (String × String)

/-- Embedding of `DictKeyedDict.__convert_dict` from `backend/base/helpers.py`:
`",".join(sorted(key.keys()) + sorted(map(str, key.values())))`. -/
def convert_dict (key : DictKey) : String :=
  String.intercalate "," (pySorted (key.map Prod.fst) ++ pySorted (key.map Prod.snd))

/-- The state of a `DictKeyedDict`: the underlying `dict` from converted key
strings to `(key, value)` pairs. -/
abbrev DictKeyedDict (α : Type) : Type := List (String × (DictKey × α))

/-- Embedding of `DictKeyedDict.__setitem__`. -/
def dkdSet {α : Type} (d : DictKeyedDict α) (key : DictKey) (value : α) :
    DictKeyedDict α :=
  pyDictSet d (convert_dict key) (key, value)

/-- Embedding of `DictKeyedDict.__getitem__` (with a `KeyError` as `none`). -/
def dkdGet {α : Type} (d : DictKeyedDict α) (key : DictKey) : Option α :=
  (d.find? (fun p => p.1 == convert_dict key)).map (fun p => p.2.2)

/-- The number of stored entries of a `DictKeyedDict`. -/
def dkdSize {α : Type} (d : DictKeyedDict α) : Nat :=
  d.length

end Helpers

/-! ## Shared enumerated types

The enum `SpecialVersion` lives in `backend/base/definitions.py`, a file absent
from the corpus; its members are the ones named in the specification (§3) and
used throughout the sources present. -/

inductive SpecialVersion where
  | normal
  | volumeAsIssue
  | oneShot
  | hardCover
  | tpb
  | omnibus
  | cover
  | metadata
deriving DecidableEq, Repr

/-! ## backend/features/search.py -/

namespace Search

/-- Python `int()` applied to a number: truncation toward zero. -/
def pyInt (q : ℚ) : ℤ :=
  if 0 ≤ q then ⌊q⌋ else ⌈q⌉

/-- An issue number of a search result: a single number or a range, as
`float | Tuple[float, float]`. -/
def IssueNum : Type := ℚ ⊕ ℚ × ℚ

/-- The fields of a `MatchedSearchResultData` that `_rank_search_result`
reads. -/
structure MatchedSearchResultData where
  matched : Bool
  series : String
  year : Option ℤ
  volume_number : Option (ℤ ⊕ ℤ × ℤ)
  special_version : Option SpecialVersion
  issue_number : Option IssueNum

/-- The last rating component of `_rank_search_result`
(`backend/features/search.py`, the `# Sort on issue number fitting` block),
mirrored branch for branch.  When the search was for a volume and the result
has no issue number the source appends nothing, hence the list result. -/
def rank_issue_fit (result : MatchedSearchResultData)
    (calculated_issue_number : Option ℚ) : List ℤ :=
  match calculated_issue_number with
  | some c =>
    match result.issue_number with
    | some (Sum.inl n) =>
      if c = n then [0]
      else if result.special_version.isSome then [2]
      else [3]
    | some (Sum.inr (lo, hi)) =>
      if lo ≤ c ∧ c ≤ hi then [pyInt (1 - 1 / (hi - lo + 1))]
      else [3]
    | none =>
      if result.special_version.isSome then [2]
      else [3]
  | none =>
    match result.issue_number with
    | some (Sum.inl _) => [1]
    | some (Sum.inr (lo, hi)) => [pyInt (1 / (hi - lo + 1))]
    | none => []

/-- Embedding of `_rank_search_result(result, title, volume_number, year,
calculated_issue_number)` from `backend/features/search.py`. -/
def rank_search_result (result : MatchedSearchResultData) (title : String)
    (volume_number : ℤ) (year : Option ℤ × Option ℤ)
    (calculated_issue_number : Option ℚ) : List ℤ :=
  let split_title := pySplitSpace title
  let unknown_words : ℤ :=
    ((pySplitSpace result.series).filter (fun w => !split_title.contains w)).length
  let vy0 : ℤ := 3
  let vy1 := if result.volume_number = some (Sum.inl volume_number) then vy0 - 1 else vy0
  let vy2 :=
    if year.2.isSome ∧ result.year.isSome ∧ year.2 = result.year then
      vy1 - 2
    else if (match year.1, year.2, result.year with
        | some y0, some y1, some ry => decide (y0 - 1 ≤ ry ∧ ry ≤ y1 + 1)
        | _, _, _ => false) = true then
      vy1 - 1
    else vy1
  [if result.matched then 0 else 1, unknown_words, vy2]
    ++ rank_issue_fit result calculated_issue_number

end Search

/-! ## backend/implementations/torrent_clients/Transmission.py -/

namespace Transmission

/-- The download states of `DownloadState`
(`backend/base/definitions.py`, absent from the corpus; the members are the
ones the specification (§4.7) and `Transmission.py` name). -/
inductive DownloadState where
  | queued
  | downloading
  | seeding
  | paused
  | failed
  | importing
deriving DecidableEq, Repr

/-- The `state_mapping` class attribute of `Transmission`: Transmission status
codes to download states. -/
def state_mapping (status : ℕ) : Option DownloadState :=
  match status with
  | 0 => some .paused
  | 1 => some .downloading
  | 2 => some .downloading
  | 3 => some .queued
  | 4 => some .downloading
  | 5 => some .seeding
  | 6 => some .seeding
  | _ => none

/-- The `potential_stall` condition of `Transmission.get_download`: status
CheckWait, Checking or DownloadWait, or Downloading with zero rate. -/
def potential_stall (status : ℕ) (dlspeed : ℤ) : Bool :=
  status == 1 || status == 2 || status == 3 || (status == 4 && dlspeed == 0)

/-- Embedding of the state/stall logic of `Transmission.get_download`
(`backend/implementations/torrent_clients/Transmission.py`).  Inputs are the
torrent's reported `status`, `rateDownload` and `error` fields, the stored
`failing_since` stamp for this download (`self.torrent_hashes[download_id]`),
the current time and the configured `failing_download_timeout` (`0` models the
falsy disabled setting).  Returns the reported state and the new stamp. -/
def get_download_step (timeout now : ℤ) (status : ℕ) (dlspeed error : ℤ)
    (stamp : Option ℤ) : DownloadState × Option ℤ :=
  let state :=
    if error ≠ 0 then DownloadState.failed
    else (state_mapping status).getD .importing
  if potential_stall status dlspeed
      ∧ state ≠ DownloadState.failed ∧ state ≠ DownloadState.seeding then
    match stamp with
    | none => (.downloading, some now)
    | some s =>
      if timeout ≠ 0 ∧ now - s > timeout then (.failed, some s)
      else (state, some s)
  else (state, none)

end Transmission

/-! ## backend/implementations/comicvine.py -/

namespace ComicVine

/-- The error a ComicVine operation surfaces
(`backend/base/custom_exceptions.py`). -/
inductive CVError where
  | rateLimitReached
deriving DecidableEq, Repr

/-- Python `batched(l, n)` from `backend/base/helpers.py`: successive slices
of size `n`.  `fuel` is an upper recursion bound; `l.length` always
suffices for positive `n`. -/
def batchedGo {α : Type} : Nat → List α → Nat → List (List α)
  | 0, _, _ => []
  | _ + 1, [], _ => []
  | fuel + 1, l, n => l.take n :: batchedGo fuel (l.drop n) n

/-- Python `batched(l, n)`. -/
def batched {α : Type} (l : List α) (n : Nat) : List (List α) :=
  batchedGo l.length l n

/-- Python `range(start, stop, step)` for a positive step. -/
def rangeStepGo : Nat → Nat → Nat → Nat → List Nat
  | 0, _, _, _ => []
  | fuel + 1, start, stop, step =>
    if start < stop then start :: rangeStepGo fuel (start + step) stop step
    else []

/-- Python `range(start, stop, step)`. -/
def rangeStep (start stop step : Nat) : List Nat :=
  rangeStepGo stop start stop step

/-- One batch of simultaneous `list_volumes` requests inside the `try` of
`fetch_volumes`: if any raises, the whole batch raises. -/
def collectResponses (api : List String → Except Unit (List ℕ)) :
    List (List String) → Except Unit (List ℕ)
  | [] => .ok []
  | b :: rest =>
    match api b with
    | .error e => .error e
    | .ok vs =>
      match collectResponses api rest with
      | .error e => .error e
      | .ok rs => .ok (vs ++ rs)

/-- The batch loop of `ComicVine.fetch_volumes`. -/
def fetchVolumesGo (api : List String → Except Unit (List ℕ)) :
    List (List String) → Except CVError (List ℕ)
  | [] => .ok []
  | batch :: rest =>
    match collectResponses api (batched batch 100) with
    | .error _ => .error .rateLimitReached
    | .ok vs =>
      match fetchVolumesGo api rest with
      | .error e => .error e
      | .ok rs => .ok (vs ++ rs)

/-- Embedding of `ComicVine.fetch_volumes`
(`backend/implementations/comicvine.py`).  `api` models one
`self.ssn.list_volumes` request for a slice of ids, returning the volume
records (as their ComicVine ids) or raising (`ServiceError` /
`AuthenticationError`, collapsed to `Except.error ()`).  The cover fetching
and the cooldown sleeps carry no claim content and are omitted; the
exception flow of the id batches is kept verbatim. -/
def fetch_volumes (api : List String → Except Unit (List ℕ))
    (cv_ids : List String) : Except CVError (List ℕ) :=
  fetchVolumesGo api (batched cv_ids 1000)

/-- Embedding of `ComicVine.fetch_volume`
(`backend/implementations/comicvine.py`): one `get_volume` request plus a
`fetch_issues` call, the whole wrapped in a `try` that turns `ServiceError` /
`AuthenticationError` into `CVRateLimitReached`. -/
def fetch_volume (get_volume : Except Unit ℕ)
    (issues : Except CVError (List ℕ)) : Except CVError (ℕ × List ℕ) :=
  match get_volume with
  | .error _ => .error .rateLimitReached
  | .ok v =>
    match issues with
    | .error e => .error e
    | .ok iss => .ok (v, iss)

/-- One offset batch of simultaneous `list_issues` requests inside the `try`
of the pagination loop of `fetch_issues`: if any raises, the batch raises. -/
def collectOffsetResponses (api : List String → ℕ → Except Unit (List ℕ))
    (idBatch : List String) : List ℕ → Except Unit (List ℕ)
  | [] => .ok []
  | off :: rest =>
    match api idBatch off with
    | .error e => .error e
    | .ok vs =>
      match collectOffsetResponses api idBatch rest with
      | .error e => .error e
      | .ok rs => .ok (vs ++ rs)

/-- The pagination loop of `ComicVine.fetch_issues`: offset batches of ten
requests each; a raise inside any batch raises `CVRateLimitReached`. -/
def paginateIssues (api : List String → ℕ → Except Unit (List ℕ))
    (idBatch : List String) : List (List ℕ) → Except CVError (List ℕ)
  | [] => .ok []
  | offsetBatch :: rest =>
    match collectOffsetResponses api idBatch offsetBatch with
    | .error _ => .error .rateLimitReached
    | .ok vs =>
      match paginateIssues api idBatch rest with
      | .error e => .error e
      | .ok rs => .ok (vs ++ rs)

/-- The outer id-batch loop of `ComicVine.fetch_issues`: a raise on the first
request of a batch breaks out of the loop, returning what was accumulated so
far; a raise inside the pagination of a batch raises `CVRateLimitReached`. -/
def fetchIssuesGo (api : List String → ℕ → Except Unit (List ℕ))
    (acc : List ℕ) : List (List String) → Except CVError (List ℕ)
  | [] => .ok acc
  | idBatch :: rest =>
    match api idBatch 0 with
    | .error _ => .ok acc
    | .ok results =>
      if results.length > 100 then
        match paginateIssues api idBatch
            (batched (rangeStep 100 results.length 100) 10) with
        | .error e => .error e
        | .ok more => fetchIssuesGo api (acc ++ results ++ more) rest
      else
        fetchIssuesGo api (acc ++ results) rest

/-- `fetch_issues` deduplicates by `comicvine_id`, keeping first
occurrences. -/
def dedupFirst (seen : List ℕ) : List ℕ → List ℕ
  | [] => []
  | x :: xs =>
    if seen.contains x then dedupFirst seen xs
    else x :: dedupFirst (x :: seen) xs

/-- Embedding of `ComicVine.fetch_issues`
(`backend/implementations/comicvine.py`).  `api` models one
`self.ssn.list_issues` request for a slice of volume ids at an offset,
returning issue records (as their ComicVine ids) or raising. -/
def fetch_issues (api : List String → ℕ → Except Unit (List ℕ))
    (cv_ids : List String) : Except CVError (List ℕ) :=
  match fetchIssuesGo api [] (batched cv_ids 50) with
  | .error e => .error e
  | .ok infos => .ok (dedupFirst [] infos)

end ComicVine

/-! ## os.path primitives (posix), as the sources use them -/

namespace Paths

/-- Index of the last occurrence of `c`, as Python `str.rfind` (absent is
`none` rather than `-1`). -/
def rfindIdx (c : Char) : List Char → Option ℕ
  | [] => none
  | x :: xs =>
    match rfindIdx c xs with
    | some i => some (i + 1)
    | none => if x = c then some 0 else none

/-- Python `posixpath.splitext` on the character list of a path: split at the
last dot that comes after the last separator and after at least one non-dot
character of the basename. -/
def splitextData (l : List Char) : List Char × List Char :=
  match rfindIdx '.' l with
  | none => (l, [])
  | some d =>
    let si : ℤ :=
      match rfindIdx '/' l with
      | some i => (i : ℤ)
      | none => -1
    if si < (d : ℤ) then
      let between := (l.drop (si + 1).toNat).take ((d : ℤ) - (si + 1)).toNat
      if between.any (fun ch => ch ≠ '.') then (l.take d, l.drop d)
      else (l, [])
    else (l, [])

/-- Python `os.path.splitext`. -/
def splitext (p : String) : String × String :=
  let r := splitextData p.data
  (String.mk r.1, String.mk r.2)

/-- Python `os.path.basename` (posix): everything after the last
separator. -/
def basename (p : String) : String :=
  match rfindIdx '/' p.data with
  | none => p
  | some i => String.mk (p.data.drop (i + 1))

/-- Python `os.path.join(a, b)` (posix) for a relative or absolute second
component. -/
def pyJoin (a b : String) : String :=
  if pyStartsWith b "/" then b
  else if a = "" then b
  else if pyEndsWith a "/" then a ++ b
  else a ++ "/" ++ b

/-- Python `str.endswith` against a tuple of suffixes. -/
def endsWithAny (s : String) (suffixes : List String) : Bool :=
  suffixes.any (fun e => pyEndsWith s e)

end Paths

/-! ## backend/implementations/converters.py -/

namespace Converters

open Paths

/-- The converter registry that the `@ConvertersManager.register_converter`
decorators of `backend/implementations/converters.py` build at import time,
in registration order: source format to the registered target formats. -/
def convertersRegistry : List (String × List String) :=
  [("zip", ["cbz", "rar", "cbr", "folder"]),
   ("cbz", ["zip", "rar", "cbr", "folder"]),
   ("rar", ["cbr", "zip", "cbz", "folder"]),
   ("cbr", ["rar", "zip", "cbz", "folder"])]

/-- `cls.converters[source_format]`, as a lookup that can miss (the miss is a
Python `KeyError`). -/
def registryLookup (source_format : String) : Option (List String) :=
  (convertersRegistry.find? (fun p => p.1 == source_format)).map (fun p => p.2)

/-- Embedding of `ConvertersManager.formats_convertible_to_folder`. -/
def formats_convertible_to_folder : List String :=
  (convertersRegistry.filter (fun p => p.2.contains "folder")).map (fun p => p.1)

/-- `splitext(filepath)[1].lower().lstrip('.')`: the source format of a
file. -/
def source_format_of (filepath : String) : String :=
  String.mk (((splitext filepath).2.data.map Char.toLower).dropWhile (fun c => c = '.'))

/-- The outcome of `ConvertersManager.select_converter`: keep the file
(`None` in the source), a proposed conversion to a target format, or an
uncaught `KeyError` from `cls.converters[source_format]`. -/
inductive SelectResult where
  | keep
  | proposed (target : String)
  | keyError
deriving DecidableEq, Repr

/-- The preference walk of `select_converter`: at each preferred format,
return `None` if the file already has it, otherwise index
`cls.converters[source_format]` — a `KeyError` for an unregistered source
format — and propose the first reachable preference. -/
def selectLoop (source_format : String) : List String → SelectResult
  | [] => .keep
  | p :: ps =>
    if source_format == p then .keep
    else
      match registryLookup source_format with
      | none => .keyError
      | some targets =>
        if targets.contains p then .proposed p
        else selectLoop source_format ps

/-- Embedding of `ConvertersManager.select_converter(filepath)`
(`backend/implementations/converters.py`).  `extract_issue_ranges` and
`format_preference` are the settings read inside; `archive_contains_issues`
is the scan of the archive listing (`backend/base/files.py`, oracle). -/
def select_converter (extract_issue_ranges : Bool)
    (archive_contains_issues : String → Bool)
    (format_preference : List String) (filepath : String) : SelectResult :=
  let source_format := source_format_of filepath
  if extract_issue_ranges && formats_convertible_to_folder.contains source_format
      && archive_contains_issues filepath then
    .proposed "folder"
  else
    selectLoop source_format format_preference

/-- The environment a rar-based converter runs in: whether `try_rar()` finds
a usable rar binary, and `FilesDB.volume_of_file` (oracle over the
database). -/
structure ConvEnv where
  rarAvailable : Bool
  volumeOf : String → Option ℕ

/-- A Python exception escaping a converter. -/
inductive PyError where
  | indexError
deriving DecidableEq, Repr

/-- Embedding of `zip_to_rar(file)` from
`backend/implementations/converters.py`, as its returned file list: `[]` when
`try_rar()` fails, `[file]` when the file maps to no volume, otherwise the
`.rar` sibling produced by the external tool.  The filesystem side effects
carry no claim content. -/
def zip_to_rar (env : ConvEnv) (file : String) : List String :=
  if !env.rarAvailable then []
  else if (env.volumeOf file).isNone then [file]
  else [(splitext file).1 ++ ".rar"]

/-- Embedding of `rar_to_zip(file)`, same shape as `zip_to_rar`. -/
def rar_to_zip (env : ConvEnv) (file : String) : List String :=
  if !env.rarAvailable then []
  else if (env.volumeOf file).isNone then [file]
  else [(splitext file).1 ++ ".zip"]

/-- Embedding of `rar_to_cbr(file)`: a plain rename. -/
def rar_to_cbr (file : String) : List String :=
  [(splitext file).1 ++ ".cbr"]

/-- Embedding of `zip_to_cbz(file)`: a plain rename. -/
def zip_to_cbz (file : String) : List String :=
  [(splitext file).1 ++ ".cbz"]

/-- Embedding of `zip_to_cbr(file)`: `zip_to_rar(file)[0]` — an uncaught
`IndexError` when `zip_to_rar` returned `[]` — then `rar_to_cbr` unless the
file came back unchanged. -/
def zip_to_cbr (env : ConvEnv) (file : String) : Except PyError (List String) :=
  match (zip_to_rar env file).head? with
  | none => .error .indexError
  | some rar_file =>
    if rar_file == file then .ok [file]
    else .ok (rar_to_cbr rar_file)

/-- Embedding of `cbz_to_cbr(file)`: same body as `zip_to_cbr`. -/
def cbz_to_cbr (env : ConvEnv) (file : String) : Except PyError (List String) :=
  zip_to_cbr env file

/-- Embedding of `rar_to_cbz(file)`: `rar_to_zip(file)[0]` then
`zip_to_cbz`. -/
def rar_to_cbz (env : ConvEnv) (file : String) : Except PyError (List String) :=
  match (rar_to_zip env file).head? with
  | none => .error .indexError
  | some zip_file =>
    if zip_file == file then .ok [file]
    else .ok (zip_to_cbz zip_file)

/-- Embedding of `cbr_to_cbz(file)`: same body as `rar_to_cbz`. -/
def cbr_to_cbz (env : ConvEnv) (file : String) : Except PyError (List String) :=
  rar_to_cbz env file

/-- Embedding of `cbr_to_zip(file)`: delegates to `rar_to_zip`. -/
def cbr_to_zip (env : ConvEnv) (file : String) : List String :=
  rar_to_zip env file

/-- Embedding of `cbz_to_rar(file)`: delegates to `zip_to_rar`. -/
def cbz_to_rar (env : ConvEnv) (file : String) : List String :=
  zip_to_rar env file

end Converters

/-! ## backend/implementations/naming.py -/

namespace Naming

open Paths Helpers

/-- The decimal digits of `n`, least significant first; `fuel ≥ n` always
suffices. -/
def natDigitsGo : Nat → Nat → List Nat
  | 0, _ => []
  | fuel + 1, n => if n = 0 then [] else n % 10 :: natDigitsGo fuel (n / 10)

/-- The character of one decimal digit. -/
def digitChar (d : Nat) : Char :=
  Char.ofNat (48 + d)

/-- The decimal rendering of a natural number, as a Python f-string renders
an `int`. -/
def pyNatRepr (n : Nat) : String :=
  if n = 0 then "0" else String.mk (((natDigitsGo n n).map digitChar).reverse)

/-- The value of a little-endian decimal digit list; the parsing inverse of
`natDigitsGo`, used to reason about it. -/
def digitsVal : List Nat → Nat
  | [] => 0
  | d :: ds => d + 10 * digitsVal ds

/-- The candidate the `while` loop of `same_name_indexing` tries at index
`i ≥ 1`: `splitext(after)[0] + f' ({index})' + splitext(after)[1]`. -/
def sniCandidate (after : String) (i : Nat) : String :=
  (splitext after).1 ++ " (" ++ pyNatRepr i ++ ")" ++ (splitext after).2

/-- The candidate the `while` loop of `same_name_indexing` examines at step
`i`, starting with the unsuffixed name. -/
def sniCandAt (after : String) (i : Nat) : String :=
  if i = 0 then after else sniCandidate after i

/-- The `while` loop of `same_name_indexing`: starting from `after`, walk the
suffixed candidates until one equals `before` or is free of `final_names`.
`fuel` bounds the walk; `names.length + 2` candidates always contain a free
one because distinct indices give distinct names. -/
def sniResolveGo (before after : String) (names : List String) :
    Nat → Nat → String
  | 0, _ => after
  | fuel + 1, i =>
    let cand := sniCandAt after i
    if before == cand || !(names.contains cand) then cand
    else sniResolveGo before after names fuel (i + 1)

/-- The resolved target for one planned rename of `same_name_indexing`. -/
def sniResolve (before after : String) (names : List String) : String :=
  sniResolveGo before after names (names.length + 2) 0

/-- The main loop of `same_name_indexing`: resolve each planned rename in
order, adding each resolved target to `final_names` as the source's
`final_names.add(new_after)` does. -/
def sniGo (names : List String) : List (String × String) → List (String × String)
  | [] => []
  | (before, after) :: rest =>
    let r := sniResolve before after names
    (before, r) :: sniGo (r :: names) rest

/-- Embedding of `same_name_indexing(volume_folder, planned_renames)` from
`backend/implementations/naming.py`.  `volume_folder_is_dir` is
`isdir(volume_folder)` and `on_disk` is `list_files(volume_folder)`; when the
volume folder is not a directory the planned renames are returned unchanged.
The final comprehension drops identity renames. -/
def same_name_indexing (volume_folder_is_dir : Bool) (on_disk : List String)
    (planned : List (String × String)) : List (String × String) :=
  if !volume_folder_is_dir then planned
  else (sniGo on_disk planned).filter (fun p => p.1 ≠ p.2)

/-- The collaborators `preview_mass_rename` reads, as oracles: the volume
record, the files database, the filesystem, and the name generators
(`generate_issue_name` and `generate_image_name` read settings and database
state; `make_filename_safe` and the `FileConstants` sets live in files absent
from the corpus). -/
structure PreviewEnv where
  volumeFolder : String
  customFolder : Bool
  generatedFolder : String
  specialVersion : SpecialVersion
  dbFiles : List String
  issuesCovered : String → List ℚ
  isfile : String → Bool
  isdir : String → Bool
  listFiles : String → List String
  genIssueName : SpecialVersion → Option (ℚ ⊕ ℚ × ℚ) → String
  genImageName : String → String
  metadataFiles : List String
  imageExtensions : List String

/-- The `gen_filename_body` computation of the loop of `preview_mass_rename`:
issue files are named from the issue (or issue range) they cover, metadata
files keep their stem appended, images with no issue are volume covers, and
image pages of an issue go into a sub-folder named by `generate_image_name`. -/
def previewBody (env : PreviewEnv) (file : String) : String :=
  let issues := env.issuesCovered file
  let body0 :=
    match issues with
    | [] =>
      if endsWithAny file env.imageExtensions then
        env.genIssueName SpecialVersion.cover none
      else (splitext (basename file)).1
    | [i1] =>
      let b := env.genIssueName env.specialVersion (some (Sum.inl i1))
      if env.metadataFiles.contains (basename (pyLower file)) then
        b ++ " " ++ (splitext (basename file)).1
      else b
    | i1 :: i2 :: rest =>
      env.genIssueName env.specialVersion
        (some (Sum.inr (i1, List.getLastD (i2 :: rest) i1)))
  if !issues.isEmpty && endsWithAny file env.imageExtensions then
    pyJoin body0 (env.genImageName file)
  else body0

/-- The `suggested_name` of one file in `preview_mass_rename`:
`join(volume_folder, gen_filename_body + splitext(file)[1].lower())`. -/
def previewSuggested (env : PreviewEnv) (vf file : String) : String :=
  pyJoin vf (previewBody env file ++ pyLower (splitext file).2)

/-- The volume folder `preview_mass_rename` renames into: the generated one
when the whole volume is processed and the folder is not custom, else the
stored one. -/
def previewTargetFolder (env : PreviewEnv) (issueGiven : Bool) : String :=
  if !issueGiven && !env.customFolder then env.generatedFolder
  else env.volumeFolder

/-- The files `preview_mass_rename` iterates over: the volume's files from
the database, sorted, restricted to the filepath filter when one is given. -/
def previewFiles (env : PreviewEnv) (filepathFilter : List String) : List String :=
  (pySorted env.dbFiles).filter
    (fun f => filepathFilter.isEmpty || filepathFilter.contains f)

/-- The planned renames of `preview_mass_rename` before collision handling:
every file still on disk whose suggested name differs, mapped to that
suggested name, in iteration order. -/
def previewPlanned (env : PreviewEnv) (issueGiven : Bool)
    (filepathFilter : List String) : List (String × String) :=
  (previewFiles env filepathFilter).filterMap (fun file =>
    if env.isfile file then
      let suggested := previewSuggested env (previewTargetFolder env issueGiven) file
      if file ≠ suggested then some (file, suggested) else none
    else none)

/-- Embedding of `preview_mass_rename(volume_id, issue_id, filepath_filter)`
from `backend/implementations/naming.py`: sort and filter the volume's files,
build the suggested name of every file still on disk, keep the changed ones,
then pass the planned mapping through `same_name_indexing`.  Returns the
mapping and the new volume folder when it differs. -/
def preview_mass_rename (env : PreviewEnv) (issueGiven : Bool)
    (filepathFilter : List String) : List (String × String) × Option String :=
  let files := previewFiles env filepathFilter
  if !issueGiven && files.isEmpty then ([], none)
  else
    let vf := previewTargetFolder env issueGiven
    let result := same_name_indexing (env.isdir vf) (env.listFiles vf)
      (previewPlanned env issueGiven filepathFilter)
    (result, if vf ≠ env.volumeFolder then some vf else none)

end Naming

/-! ## backend/implementations/file_matching.py -/

namespace FileMatching

/-- How many bindings of the list are for issue `i`. -/
def issueCount (l : List (Nat × Nat)) (i : Nat) : Nat :=
  (l.filter (fun b => b.2 = i)).length

/-- The `newly_downloaded_issues` loop of `scan_files`: walk the added
bindings with the running `issue_binding_count`, noting each issue whose
count is zero when its first added binding is seen.  Returns the noted issues
and the final count. -/
def newlyGo : List (Nat × Nat) → (Nat → ℤ) → List Nat × (Nat → ℤ)
  | [], cnt => ([], cnt)
  | b :: rest, cnt =>
    let hit := cnt b.2 = 0
    let cnt2 := fun j => if j = b.2 then cnt b.2 + 1 else cnt j
    let r := newlyGo rest cnt2
    (if hit then b.2 :: r.1 else r.1, r.2)

/-- The `deleted_downloaded_issues` loop of `scan_files`: walk the deleted
bindings decrementing the count, noting each issue whose count reaches
zero. -/
def deletedGo : List (Nat × Nat) → (Nat → ℤ) → List Nat
  | [], _ => []
  | b :: rest, cnt =>
    let cnt2 := fun j => if j = b.2 then cnt b.2 - 1 else cnt j
    if cnt2 b.2 = 0 then b.2 :: deletedGo rest cnt2
    else deletedGo rest cnt2

/-- What the binding bookkeeping of one `scan_files` call produces. -/
structure ScanDiff where
  delete_bindings : List (Nat × Nat)
  add_bindings : List (Nat × Nat)
  newly_downloaded : List Nat
  deleted_downloaded : List Nat
  post_bindings : List (Nat × Nat)
  event : Option (List Nat × List Nat)

/-- Embedding of the binding diff, accounting and event emission of
`scan_files` (`backend/implementations/file_matching.py`, from the
`current_bindings` query to the `DownloadedStatusEvent` emission).
`current` is the issue-file table for the volume before the call and
`bindings` the bindings the scan of the folder computed; both are
`(file_id, issue_id)` pairs.  With a `filepath_filter` the stale bindings are
not deleted and only the newly downloaded issues are emitted.  The `event`
field is `(not_downloaded_issues, downloaded_issues)`. -/
def scan_files_diff (current bindings : List (Nat × Nat))
    (filterEmpty update_websocket : Bool) : ScanDiff :=
  let delete_bindings := current.filter (fun b => !bindings.contains b)
  let add_bindings := bindings.filter (fun b => !current.contains b)
  let cnt0 : Nat → ℤ := fun i => (issueCount current i : ℤ)
  let newlyR := newlyGo add_bindings cnt0
  let newly := newlyR.1
  let deleted := deletedGo delete_bindings newlyR.2
  let post :=
    if filterEmpty then
      current.filter (fun b => !delete_bindings.contains b) ++ add_bindings
    else current ++ add_bindings
  let event :=
    if update_websocket then
      if filterEmpty && (!deleted.isEmpty || !newly.isEmpty) then
        some (deleted, newly)
      else if !filterEmpty && !newly.isEmpty then
        some (([] : List Nat), newly)
      else none
    else none
  ⟨delete_bindings, add_bindings, newly, deleted, post, event⟩

/-- The issues a `DownloadedStatusEvent` reports as newly downloaded (empty
when no event is emitted). -/
def emittedDownloaded (r : ScanDiff) : List Nat :=
  match r.event with
  | some (_, d) => d
  | none => []

/-- The issues a `DownloadedStatusEvent` reports as no longer downloaded
(empty when no event is emitted). -/
def emittedNotDownloaded (r : ScanDiff) : List Nat :=
  match r.event with
  | some (nd, _) => nd
  | none => []

end FileMatching

namespace Naming

/-- A concrete rename-preview environment: a volume whose folder does not
exist on disk, two database files covering the same single issue, and a
generated name oracle that produces the same body for every file. -/
def cexRenameEnv : PreviewEnv where
  volumeFolder := "/vol"
  customFolder := true
  generatedFolder := "/vol"
  specialVersion := .normal
  dbFiles := ["/old/a.cbz", "/old/b.cbz"]
  issuesCovered := fun _ => [1]
  isfile := fun _ => true
  isdir := fun _ => false
  listFiles := fun _ => []
  genIssueName := fun _ _ => "Name"
  genImageName := fun _ => "1"
  metadataFiles := []
  imageExtensions := [".png", ".jpeg", ".jpg", ".webp", ".gif"]

/-- The same environment with the volume folder present as a directory,
so `same_name_indexing` actually deduplicates. -/
def cexRenameEnvDir : PreviewEnv :=
  { cexRenameEnv with isdir := fun _ => true }

end Naming


/-! ## Theorems settling the claims -/

namespace Matching

/-- C7, counterexample.  The claim asserts
`match_title("X-Men", "X Men Unlimited")` with `allow_contains=true` is true;
in the source `allow_contains` tests whether the cleaned second title occurs
inside the cleaned first title, so this call is false
("xmenunlimited" is not inside "xmen"). -/
theorem match_title_contains_direction_cex :
    match_title "X-Men" "X Men Unlimited" true = false := by
  decide

/-- C7, amended: `match_title` lowercases, drops the noise tokens of
`clean_title_regex` and strips spaces, then requires equality — or, with the
contains flag, that the cleaned second title occurs inside the cleaned first.
Hence `match_title("The Amazing Spider-Man", "Amazing Spiderman")` is true,
`match_title("X-Men", "X Men Unlimited")` is false, and the containment
example holds with the arguments swapped:
`match_title("X Men Unlimited", "X-Men", allow_contains=true)` is true. -/
theorem match_title_examples_amended :
    match_title "The Amazing Spider-Man" "Amazing Spiderman" false = true
    ∧ match_title "X-Men" "X Men Unlimited" false = false
    ∧ match_title "X Men Unlimited" "X-Men" true = true
    ∧ cleanTitle "The Amazing Spider-Man" = "amazingspiderman"
    ∧ cleanTitle "Amazing Spiderman" = "amazingspiderman"
    ∧ (∀ t1 t2 : String,
        match_title t1 t2 false = (cleanTitle t1 == cleanTitle t2)) := by
  refine ⟨by decide, by decide, by decide, by decide, by decide, ?_⟩
  intro t1 t2
  rfl

/-- C8, counterexample.  The claim asserts that for all integer years
`match_year(ref, chk, end_year)` is true exactly when
`ref - 1 ≤ chk ≤ end_year + 1`.  With `end_year = 0` the source's
`end_year or reference_year` falls back to the reference year (0 is falsy),
so `match_year(2015, 2015, 0)` is true although `2015 ≤ 0 + 1` fails. -/
theorem match_year_zero_end_year_cex :
    match_year (some 2015) (some 2015) (some 0) false = true
    ∧ ¬ ((2015 : ℤ) - 1 ≤ 2015 ∧ (2015 : ℤ) ≤ 0 + 1) := by
  exact ⟨by decide, by decide⟩

/-- C8, amended: `match_year(ref, chk, end_year, conservative)` is true
exactly when `ref - 1 ≤ chk ≤ end_year + 1`, where `end_year` defaults to
`ref` when it is not supplied or when it is the falsy `0`; when either year
is absent the conservative flag is returned; and the concrete examples of the
claim hold. -/
theorem match_year_amended :
    (∀ (ref chk e : ℤ) (cons : Bool), e ≠ 0 →
      match_year (some ref) (some chk) (some e) cons
        = decide (ref - 1 ≤ chk ∧ chk ≤ e + 1))
    ∧ (∀ (ref chk : ℤ) (cons : Bool),
      match_year (some ref) (some chk) none cons
        = decide (ref - 1 ≤ chk ∧ chk ≤ ref + 1))
    ∧ (∀ (ref chk : ℤ) (cons : Bool),
      match_year (some ref) (some chk) (some 0) cons
        = match_year (some ref) (some chk) none cons)
    ∧ (∀ (y e : Option ℤ) (cons : Bool),
      match_year none y e cons = cons ∧ match_year y none e cons = cons)
    ∧ match_year (some 2015) (some 2016) none false = true
    ∧ match_year (some 2015) (some 2018) none false = false
    ∧ match_year (some 2015) (some 2018) (some 2017) false = true
    ∧ match_year none (some 2016) none true = true := by
  refine ⟨?_, ?_, ?_, ?_, by decide, by decide, by decide, by decide⟩
  · intro ref chk e cons he
    simp [match_year, he]
  · intro ref chk cons
    rfl
  · intro ref chk cons
    rfl
  · intro y e cons
    cases y <;> exact ⟨rfl, rfl⟩

/-- C8, witness for the amended theorem: the characterisation applied at
concrete years. -/
theorem match_year_amended_witness :
    match_year (some 2015) (some 2018) (some 2017) false
      = decide ((2015 : ℤ) - 1 ≤ 2018 ∧ (2018 : ℤ) ≤ 2017 + 1) :=
  match_year_amended.1 2015 2018 2017 false (by decide)

end Matching

namespace Converters

/-- C6: when `try_rar()` reports the rar binary unavailable, `zip_to_rar` and
`rar_to_zip` return the empty list — not the original file, which they return
only in the unmatched-volume case — and the conversions routed through them
(`zip_to_cbr`, `cbz_to_cbr`, `rar_to_cbz`, `cbr_to_cbz`) index `[0]` of that
empty list and die with an uncaught `IndexError` instead of returning the
original file unchanged. -/
theorem rar_unavailable_behaviour :
    zip_to_rar ⟨false, fun _ => some 1⟩ "a.zip" = []
    ∧ rar_to_zip ⟨false, fun _ => some 1⟩ "a.rar" = []
    ∧ zip_to_rar ⟨false, fun _ => some 1⟩ "a.zip" ≠ ["a.zip"]
    ∧ zip_to_cbr ⟨false, fun _ => some 1⟩ "a.zip" = .error .indexError
    ∧ cbz_to_cbr ⟨false, fun _ => some 1⟩ "a.cbz" = .error .indexError
    ∧ rar_to_cbz ⟨false, fun _ => some 1⟩ "a.rar" = .error .indexError
    ∧ cbr_to_cbz ⟨false, fun _ => some 1⟩ "a.cbr" = .error .indexError
    ∧ zip_to_rar ⟨true, fun _ => none⟩ "a.zip" = ["a.zip"] :=
  ⟨rfl, rfl, by decide, rfl, rfl, rfl, rfl, rfl⟩

end Converters

namespace ComicVine

/-- C5: evaluated at failing inputs, `fetch_volumes` raises
`CVRateLimitReached` when a batch request fails (instead of returning the
truncated list the claim describes), `fetch_volume` raises as the claim says,
and `fetch_issues` truncates on a failed first request of an id batch but
raises from inside its pagination loop. -/
theorem bulk_fetch_rate_limit_behaviour :
    fetch_volumes (fun _ => .error ()) ["4050-798"] = .error .rateLimitReached
    ∧ fetch_volume (.error ()) (.ok []) = .error .rateLimitReached
    ∧ fetch_issues (fun b _ => if b.length == 50 then .ok [10] else .error ())
        (List.replicate 51 "9") = .ok [10]
    ∧ fetch_issues (fun _ off => if off == 0 then .ok (List.range 101) else .error ())
        ["1"] = .error .rateLimitReached :=
  ⟨rfl, rfl, rfl, rfl⟩

end ComicVine

namespace Transmission

/-- The status mapping never reports FAILED on its own: FAILED comes from the
torrent's error flag or from the stall timeout. -/
theorem state_mapping_ne_failed (status : ℕ) :
    (state_mapping status).getD .importing ≠ DownloadState.failed := by
  rcases status with _ | _ | _ | _ | _ | _ | _ | n <;> simp [state_mapping]

/-- C4: for a torrent reporting no error, (i) a stalled observation with no
stamp stores the current time and reports DOWNLOADING (not FAILED); (ii) a
FAILED report happens only on a stalled observation with a stamp already set,
a non-zero `failing_download_timeout`, and `now - stamp > timeout`; (iii) a
non-stalled observation clears the stamp; and (iv) a stalled observation
whose stamp is old enough does report FAILED. -/
theorem stall_detection_protocol (timeout now : ℤ) (status : ℕ)
    (dlspeed : ℤ) (stamp : Option ℤ) :
    (potential_stall status dlspeed = true →
      get_download_step timeout now status dlspeed 0 none
        = (DownloadState.downloading, some now))
    ∧ ((get_download_step timeout now status dlspeed 0 stamp).1
          = DownloadState.failed →
        potential_stall status dlspeed = true ∧ timeout ≠ 0
          ∧ ∃ s, stamp = some s ∧ now - s > timeout)
    ∧ (potential_stall status dlspeed = false →
        (get_download_step timeout now status dlspeed 0 stamp).2 = none)
    ∧ (∀ s, potential_stall status dlspeed = true → stamp = some s →
        timeout ≠ 0 → now - s > timeout →
        (get_download_step timeout now status dlspeed 0 stamp).1
          = DownloadState.failed) := by
  have hs0 : (state_mapping status).getD .importing ≠ DownloadState.failed :=
    state_mapping_ne_failed status
  have hseed : potential_stall status dlspeed = true →
      (state_mapping status).getD .importing ≠ DownloadState.seeding := by
    intro h
    simp only [potential_stall, Bool.or_eq_true, beq_iff_eq,
      Bool.and_eq_true] at h
    rcases h with ((h | h) | h) | ⟨h, _⟩ <;> subst h <;> decide
  have herr :
      (if (0 : ℤ) ≠ 0 then DownloadState.failed
        else (state_mapping status).getD .importing)
        = (state_mapping status).getD .importing := by simp
  refine ⟨?_, ?_, ?_, ?_⟩
  · intro hp
    simp only [get_download_step, herr]
    rw [if_pos ⟨hp, hs0, hseed hp⟩]
  · intro h
    by_cases hp : potential_stall status dlspeed = true
    · refine ⟨hp, ?_⟩
      simp only [get_download_step, herr] at h
      rw [if_pos ⟨hp, hs0, hseed hp⟩] at h
      rcases stamp with _ | s
      · simp at h
      · dsimp only at h
        by_cases ht : timeout ≠ 0 ∧ now - s > timeout
        · exact ⟨ht.1, s, rfl, ht.2⟩
        · rw [if_neg ht] at h
          exact absurd h hs0
    · simp only [Bool.not_eq_true] at hp
      simp only [get_download_step, herr] at h
      rw [if_neg (by simp [hp])] at h
      exact absurd h hs0
  · intro hp
    simp only [get_download_step, herr]
    rw [if_neg (by simp [hp])]
  · intro s hp hst ht htime
    subst hst
    simp only [get_download_step, herr]
    rw [if_pos ⟨hp, hs0, hseed hp⟩]
    simp [ht, htime]

/-- C4, witness: the protocol applied to a concrete Transmission trace —
status 4 (Downloading) at rate 0 is stamped at time 100 and, with
`failing_download_timeout = 30`, reported FAILED at time 141; a seeding
observation clears the stamp. -/
theorem stall_detection_protocol_witness :
    get_download_step 30 100 4 0 0 none = (DownloadState.downloading, some 100)
    ∧ (get_download_step 30 120 6 500 0 (some 99)).2 = none
    ∧ (get_download_step 30 141 4 0 0 (some 100)).1 = DownloadState.failed :=
  ⟨(stall_detection_protocol 30 100 4 0 none).1 (by decide),
   (stall_detection_protocol 30 120 6 500 (some 99)).2.2.1 (by decide),
   (stall_detection_protocol 30 141 4 0 (some 100)).2.2.2 100 (by decide) rfl
     (by decide) (by decide)⟩

end Transmission

namespace Search

/-- C3: evaluated at the failing input — an issue search for number 3 against
a matching result covering the range [1, 5] — the issue-fit component of the
ranker key is `int(1 - 1/(hi - lo + 1))`, which truncates the claimed value
`1 - 1/5 = 4/5` to `0`; and a result carrying a single non-matching issue
number together with a special version scores `2`, although the claim reserves
`2` for results with no issue number. -/
theorem rank_issue_fit_truncation :
    rank_issue_fit ⟨true, "t", none, none, none, some (Sum.inr (1, 5))⟩ (some 3) = [0]
    ∧ (1 - 1 / ((5 : ℚ) - 1 + 1)) = 4 / 5
    ∧ (4 / 5 : ℚ) ≠ 0
    ∧ rank_issue_fit ⟨true, "t", none, none, some SpecialVersion.tpb, some (Sum.inl 7)⟩
        (some 3) = [2]
    ∧ rank_search_result ⟨true, "t", none, none, none, some (Sum.inr (1, 5))⟩
        "t" 1 (none, none) (some 3) = [0, 0, 3, 0] := by
  have h1 : rank_issue_fit ⟨true, "t", none, none, none, some (Sum.inr (1, 5))⟩
      (some 3) = [0] := by
    show (if (1 : ℚ) ≤ 3 ∧ (3 : ℚ) ≤ 5 then [pyInt (1 - 1 / (5 - 1 + 1))] else [3]) = [0]
    rw [if_pos (by norm_num)]
    have h45 : (1 - 1 / ((5 : ℚ) - 1 + 1)) = 4 / 5 := by norm_num
    rw [h45]
    simp only [pyInt, if_pos (by norm_num : (0 : ℚ) ≤ 4 / 5)]
    norm_num [Int.floor_eq_zero_iff, Set.mem_Ico]
  refine ⟨h1, by norm_num, by norm_num, ?_, ?_⟩
  · show (if (3 : ℚ) = 7 then [0]
      else if (some SpecialVersion.tpb).isSome then [2] else [3]) = [2]
    rw [if_neg (by norm_num)]
    rfl
  · unfold rank_search_result
    simp only [h1]
    decide

end Search

namespace Converters

/-- C9: for a file whose lowercase extension is not a registered source
format, `select_converter` dies with an uncaught `KeyError` exactly when the
ordered format preference opens with a format different from the source
format, and returns `None` exactly when the preference is empty or opens with
the source format itself (the extraction branch cannot fire because an
unregistered format converts to nothing, `folder` included). -/
theorem select_converter_unregistered_source (eir : Bool)
    (aci : String → Bool) (pref : List String) (fp : String)
    (h : registryLookup (source_format_of fp) = none) :
    (select_converter eir aci pref fp = .keyError
      ↔ ∃ p, pref.head? = some p ∧ p ≠ source_format_of fp)
    ∧ (select_converter eir aci pref fp = .keep
      ↔ (pref.head? = none ∨ pref.head? = some (source_format_of fp))) := by
  have hnm : source_format_of fp ∉ formats_convertible_to_folder := by
    intro hc
    have hl : source_format_of fp = "zip" ∨ source_format_of fp = "cbz"
        ∨ source_format_of fp = "rar" ∨ source_format_of fp = "cbr" := by
      simpa [formats_convertible_to_folder, convertersRegistry] using hc
    rcases hl with h1 | h1 | h1 | h1 <;>
      · rw [h1] at h
        simp [registryLookup, convertersRegistry] at h
  have hfold : formats_convertible_to_folder.contains (source_format_of fp)
      = false := by
    simpa using hnm
  have hsel : select_converter eir aci pref fp
      = selectLoop (source_format_of fp) pref := by
    simp only [select_converter, hfold, Bool.and_false, Bool.false_and,
      Bool.false_eq_true, if_false]
  rw [hsel]
  cases pref with
  | nil => simp [selectLoop]
  | cons p ps =>
    by_cases hp : source_format_of fp = p
    · subst hp
      simp [selectLoop]
    · have hloop : selectLoop (source_format_of fp) (p :: ps)
          = SelectResult.keyError := by
        simp [selectLoop, hp, h]
      rw [hloop]
      constructor
      · exact ⟨fun _ => ⟨p, rfl, fun hh => hp hh.symm⟩, fun _ => rfl⟩
      · constructor
        · intro hk
          simp at hk
        · rintro (hk | hk)
          · simp at hk
          · simp only [List.head?_cons, Option.some.injEq] at hk
            exact absurd hk.symm hp

/-- C9, witness: an image file dies with `KeyError` under the preference
`["cbz"]` and survives under the empty preference. -/
theorem select_converter_unregistered_source_witness :
    select_converter false (fun _ => false) ["cbz"] "photo.jpg"
      = SelectResult.keyError
    ∧ select_converter false (fun _ => false) [] "photo.jpg"
      = SelectResult.keep :=
  ⟨(select_converter_unregistered_source false (fun _ => false) ["cbz"]
      "photo.jpg" (by decide)).1.mpr ⟨"cbz", rfl, by decide⟩,
   (select_converter_unregistered_source false (fun _ => false) []
      "photo.jpg" (by decide)).2.mpr (Or.inl rfl)⟩

end Converters

namespace Helpers

/-- Assigning under key `k` makes `k` findable with the stored pair, whether
the underlying dict already had the key (in-place update) or not (append). -/
theorem find_pyDictSet {α : Type} (d : List (String × α)) (k : String) (v : α) :
    (pyDictSet d k v).find? (fun p => p.1 == k) = some (k, v) := by
  unfold pyDictSet
  by_cases h : d.any (fun p => p.1 == k) = true
  · rw [if_pos h]
    induction d with
    | nil => simp at h
    | cons x xs ih =>
      by_cases hx : (x.1 == k) = true
      · rw [List.map_cons, if_pos hx]
        exact List.find?_cons_of_pos _ (by simp)
      · have hxs : xs.any (fun p => p.1 == k) = true := by
          rcases List.any_eq_true.mp h with ⟨y, hy, hyk⟩
          rcases List.mem_cons.mp hy with rfl | hy2
          · exact absurd hyk (by simpa using hx)
          · exact List.any_eq_true.mpr ⟨y, hy2, hyk⟩
        rw [List.map_cons, if_neg hx, List.find?_cons_of_neg _ (by simpa using hx)]
        exact ih hxs
  · rw [if_neg h]
    rw [List.find?_append]
    have hnone : d.find? (fun p => p.1 == k) = none := by
      rw [List.find?_eq_none]
      intro x hx
      simp only [Bool.not_eq_true]
      by_contra hc
      exact h (List.any_eq_true.mpr ⟨x, hx, by simpa using hc⟩)
    simp [hnone, List.find?]

/-- Keys whose `__convert_dict` strings coincide denote the same slot. -/
theorem dkd_get_set {α : Type} (d : DictKeyedDict α) (k1 k2 : DictKey) (v : α)
    (h : convert_dict k1 = convert_dict k2) :
    dkdGet (dkdSet d k1 v) k2 = some v := by
  unfold dkdGet dkdSet
  rw [← h, find_pyDictSet]
  rfl

/-- Keys whose `__convert_dict` strings differ get separate slots. -/
theorem dkd_distinct_keys {α : Type} (k1 k2 : DictKey) (v1 v2 : α)
    (h : convert_dict k1 ≠ convert_dict k2) :
    dkdGet (dkdSet (dkdSet [] k1 v1) k2 v2) k1 = some v1 := by
  have hne : (convert_dict k1 == convert_dict k2) = false := by
    simpa using h
  simp [dkdGet, dkdSet, pyDictSet, List.find?, hne]

/-- C10: `DictKeyedDict` identifies two mapping keys exactly when their
`__convert_dict` strings — sorted key names joined with the independently
sorted stringified values — coincide; the distinct dicts `a: x, b: y` and
`a: y, b: x` collide, so the second store overwrites the first and a lookup
under either key sees the overwriting value, with only one entry stored. -/
theorem dict_keyed_dict_key_identification :
    (∀ (k1 k2 : DictKey) (v : ℕ) (d : DictKeyedDict ℕ),
        convert_dict k1 = convert_dict k2 →
        dkdGet (dkdSet d k1 v) k2 = some v)
    ∧ (∀ (k1 k2 : DictKey) (v1 v2 : ℕ),
        convert_dict k1 ≠ convert_dict k2 →
        dkdGet (dkdSet (dkdSet [] k1 v1) k2 v2) k1 = some v1)
    ∧ convert_dict [("a", "x"), ("b", "y")] = convert_dict [("a", "y"), ("b", "x")]
    ∧ ([("a", "x"), ("b", "y")] : DictKey) ≠ [("a", "y"), ("b", "x")]
    ∧ dkdGet (dkdSet (dkdSet ([] : DictKeyedDict ℕ) [("a", "x"), ("b", "y")] 1)
        [("a", "y"), ("b", "x")] 2) [("a", "x"), ("b", "y")] = some 2
    ∧ dkdSize (dkdSet (dkdSet ([] : DictKeyedDict ℕ) [("a", "x"), ("b", "y")] 1)
        [("a", "y"), ("b", "x")] 2) = 1 :=
  ⟨fun k1 k2 v d h => dkd_get_set d k1 k2 v h,
   fun k1 k2 v1 v2 h => dkd_distinct_keys k1 k2 v1 v2 h,
   by decide, by decide, by decide, by decide⟩

/-- C10, witness: the identification applied to the colliding pair and the
separation applied to a non-colliding pair. -/
theorem dict_keyed_dict_key_identification_witness :
    dkdGet (dkdSet ([] : DictKeyedDict ℕ) [("a", "x"), ("b", "y")] 7)
        [("a", "y"), ("b", "x")] = some 7
    ∧ dkdGet (dkdSet (dkdSet ([] : DictKeyedDict ℕ) [("a", "x")] 1)
        [("c", "z")] 2) [("a", "x")] = some 1 :=
  ⟨dict_keyed_dict_key_identification.1 _ _ 7 [] (by decide),
   dict_keyed_dict_key_identification.2.1 _ _ 1 2 (by decide)⟩

end Helpers

namespace FileMatching

theorem issueCount_cons (b : Nat × Nat) (l : List (Nat × Nat)) (i : Nat) :
    issueCount (b :: l) i = (if b.2 = i then 1 else 0) + issueCount l i := by
  by_cases h : b.2 = i <;> simp [issueCount, List.filter, h] <;> omega

theorem issueCount_append (l1 l2 : List (Nat × Nat)) (i : Nat) :
    issueCount (l1 ++ l2) i = issueCount l1 i + issueCount l2 i := by
  simp [issueCount, List.filter_append]

theorem issueCount_nil (i : Nat) : issueCount [] i = 0 := rfl

theorem newlyGo_snd (l : List (Nat × Nat)) (cnt : Nat → ℤ) (i : Nat) :
    (newlyGo l cnt).2 i = cnt i + issueCount l i := by
  induction l generalizing cnt with
  | nil => simp [newlyGo, issueCount_nil]
  | cons b rest ih =>
    simp only [newlyGo, issueCount_cons]
    rw [ih]
    by_cases h : i = b.2 <;> simp [h] <;> omega

theorem newlyGo_mem (l : List (Nat × Nat)) (cnt : Nat → ℤ) (i : Nat)
    (hnn : ∀ j, 0 ≤ cnt j) :
    i ∈ (newlyGo l cnt).1 ↔ cnt i = 0 ∧ 0 < issueCount l i := by
  induction l generalizing cnt with
  | nil => simp [newlyGo, issueCount_nil]
  | cons b rest ih =>
    have hnn2 : ∀ j, 0 ≤ (fun j => if j = b.2 then cnt b.2 + 1 else cnt j) j := by
      intro j
      dsimp only
      split
      · have := hnn b.2
        omega
      · exact hnn j
    have hih2 : i ∈ (newlyGo rest fun j => if j = b.2 then cnt b.2 + 1 else cnt j).1
        ↔ (if i = b.2 then cnt b.2 + 1 else cnt i) = 0 ∧ 0 < issueCount rest i := by
      simpa using ih _ hnn2
    simp only [newlyGo, issueCount_cons]
    by_cases hhit : cnt b.2 = 0
    · rw [if_pos hhit, List.mem_cons, hih2]
      by_cases h : i = b.2
      · subst h
        simp [hhit] <;> omega
      · simp [h, Ne.symm h] <;> omega
    · rw [if_neg hhit, hih2]
      by_cases h : i = b.2
      · subst h
        have hb := hnn b.2
        simp [hhit] <;> omega
      · simp [h, Ne.symm h] <;> omega

theorem deletedGo_mem (l : List (Nat × Nat)) (cnt : Nat → ℤ) (i : Nat) :
    i ∈ deletedGo l cnt ↔ 1 ≤ cnt i ∧ cnt i ≤ issueCount l i := by
  induction l generalizing cnt with
  | nil =>
    simp [deletedGo, issueCount_nil]
    omega
  | cons b rest ih =>
    have hih2 : i ∈ deletedGo rest (fun j => if j = b.2 then cnt b.2 - 1 else cnt j)
        ↔ 1 ≤ (if i = b.2 then cnt b.2 - 1 else cnt i)
          ∧ (if i = b.2 then cnt b.2 - 1 else cnt i) ≤ issueCount rest i := by
      simpa using ih (fun j => if j = b.2 then cnt b.2 - 1 else cnt j)
    simp only [deletedGo, issueCount_cons, if_pos rfl]
    by_cases hone : cnt b.2 - 1 = 0
    · rw [if_pos (by simpa using hone), List.mem_cons, hih2]
      by_cases h : i = b.2
      · subst h
        simp [hone] <;> omega
      · simp [h, Ne.symm h] <;> omega
    · rw [if_neg (by simpa using hone), hih2]
      by_cases h : i = b.2
      · subst h
        simp [hone] <;> omega
      · simp [h, Ne.symm h] <;> omega

theorem issueCount_filter_le (l : List (Nat × Nat)) (p : Nat × Nat → Bool) (i : Nat) :
    issueCount (l.filter p) i ≤ issueCount l i :=
  List.Sublist.length_le (List.Sublist.filter _ (List.filter_sublist l))

theorem issueCount_filter_partition (l : List (Nat × Nat)) (p : Nat × Nat → Bool)
    (i : Nat) :
    issueCount (l.filter p) i + issueCount (l.filter (fun b => !p b)) i
      = issueCount l i := by
  induction l with
  | nil => simp [issueCount_nil]
  | cons b rest ih =>
    by_cases hp : p b <;>
      simp only [List.filter_cons, hp, Bool.not_true, Bool.not_false,
        ite_true, ite_false, if_pos, if_neg, Bool.false_eq_true,
        issueCount_cons] <;>
      omega

theorem scan_post_keep_eq (current bindings : List (Nat × Nat)) :
    current.filter
        (fun b => !(current.filter (fun c => !bindings.contains c)).contains b)
      = current.filter (fun b => bindings.contains b) := by
  apply List.filter_congr
  intro b hb
  by_cases hc : bindings.contains b
  · have hmemb : b ∈ bindings := by simpa using hc
    have hnd : b ∉ current.filter (fun c => !bindings.contains c) := by
      simp [List.mem_filter, hmemb]
    simp [hc, hnd]
    intro _
    exact hmemb
  · simp [hc, List.mem_filter, hb]

/-- C1: for every invocation of `scan_files` — any prior binding table, any
bindings computed by the folder scan, either filter mode, websocket updates
on — the issues the `DOWNLOADED_STATUS` event reports as newly downloaded are
exactly those whose binding count goes from 0 before the call to positive
after it, the issues reported as no longer downloaded exactly those whose
count goes from positive to 0, and together the two reported sets are the
symmetric difference of the pre- and post-call sets of issues having at least
one bound file.  When no event is emitted both reported sets are read as
empty, which the same equivalences show is exactly the no-transition case. -/
theorem scan_downloaded_status_accounting (current bindings : List (Nat × Nat))
    (fe : Bool) (i : Nat) :
    (i ∈ emittedDownloaded (scan_files_diff current bindings fe true)
      ↔ issueCount current i = 0
        ∧ 0 < issueCount (scan_files_diff current bindings fe true).post_bindings i)
    ∧ (i ∈ emittedNotDownloaded (scan_files_diff current bindings fe true)
      ↔ 0 < issueCount current i
        ∧ issueCount (scan_files_diff current bindings fe true).post_bindings i = 0)
    ∧ ((i ∈ emittedDownloaded (scan_files_diff current bindings fe true)
        ∨ i ∈ emittedNotDownloaded (scan_files_diff current bindings fe true))
      ↔ ¬ ((0 < issueCount current i)
          ↔ (0 < issueCount (scan_files_diff current bindings fe true).post_bindings i))) := by
  -- abbreviations mirroring the source's locals
  set del := current.filter (fun b => !bindings.contains b) with hdel
  set add := bindings.filter (fun b => !current.contains b) with hadd
  set cnt0 : Nat → ℤ := fun j => (issueCount current j : ℤ) with hcnt0
  have hnn : ∀ j, 0 ≤ cnt0 j := fun j => Int.ofNat_nonneg _
  set newly := (newlyGo add cnt0).1 with hnewly
  set deleted := deletedGo del (newlyGo add cnt0).2 with hdeleted
  have hnewmem : ∀ j, j ∈ newly ↔
      (issueCount current j : ℤ) = 0 ∧ 0 < issueCount add j := by
    intro j
    rw [hnewly, newlyGo_mem add cnt0 j hnn]
  have hdelmem : ∀ j, j ∈ deleted ↔
      1 ≤ (issueCount current j : ℤ) + issueCount add j
      ∧ (issueCount current j : ℤ) + issueCount add j ≤ issueCount del j := by
    intro j
    rw [hdeleted, deletedGo_mem del _ j]
    constructor
    · intro ⟨h1, h2⟩
      rw [newlyGo_snd add cnt0 j] at h1 h2
      exact ⟨h1, h2⟩
    · intro ⟨h1, h2⟩
      rw [newlyGo_snd add cnt0 j]
      exact ⟨h1, h2⟩
  have hdle : issueCount del i ≤ issueCount current i := issueCount_filter_le _ _ _
  -- the state of the issue-file table after the call
  have hpost : issueCount (scan_files_diff current bindings fe true).post_bindings i
      = (if fe then issueCount current i - issueCount del i else issueCount current i)
        + issueCount add i := by
    show issueCount (if fe = true then
        current.filter (fun b => !del.contains b) ++ add else current ++ add) i = _
    cases fe with
    | true =>
      rw [if_pos rfl, if_pos rfl, issueCount_append]
      have := issueCount_filter_partition current (fun b => bindings.contains b) i
      rw [hdel]
      rw [scan_post_keep_eq current bindings]
      omega
    | false =>
      rw [if_neg (by simp), if_neg (by simp), issueCount_append]
  have hevent : (scan_files_diff current bindings fe true).event
      = if fe && (!deleted.isEmpty || !newly.isEmpty) then some (deleted, newly)
        else if !fe && !newly.isEmpty then some (([] : List Nat), newly)
        else none := rfl
  have hED : ∀ j, (j ∈ emittedDownloaded (scan_files_diff current bindings fe true)
      ↔ j ∈ newly) := by
    intro j
    unfold emittedDownloaded
    rw [hevent]
    cases fe with
    | true =>
      by_cases hne : (!deleted.isEmpty || !newly.isEmpty) = true
      · rw [Bool.true_and, if_pos hne]
      · rw [Bool.true_and, if_neg (by simpa using hne)]
        simp only [Bool.not_true, Bool.false_and, Bool.false_eq_true, if_false]
        have hn : newly = [] := by
          simp only [Bool.or_eq_true, Bool.not_eq_true] at hne
          have := (Bool.not_eq_true _).mp (fun hx => hne (Or.inr hx))
          simpa [List.isEmpty_iff] using this
        rw [hn]
    | false =>
      simp only [Bool.false_and, Bool.false_eq_true, if_false, Bool.not_false,
        Bool.true_and]
      by_cases hne : (!newly.isEmpty) = true
      · rw [if_pos hne]
      · rw [if_neg (by simpa using hne)]
        have hn : newly = [] := by
          simp only [Bool.not_eq_true, Bool.not_eq_false] at hne
          simpa [List.isEmpty_iff] using hne
        rw [hn]
  have hEND : ∀ j, (j ∈ emittedNotDownloaded (scan_files_diff current bindings fe true)
      ↔ fe = true ∧ j ∈ deleted) := by
    intro j
    unfold emittedNotDownloaded
    rw [hevent]
    cases fe with
    | true =>
      by_cases hne : (!deleted.isEmpty || !newly.isEmpty) = true
      · rw [Bool.true_and, if_pos hne]
        simp
      · rw [Bool.true_and, if_neg (by simpa using hne)]
        simp only [Bool.not_true, Bool.false_and, Bool.false_eq_true, if_false]
        have hd : deleted = [] := by
          simp only [Bool.or_eq_true, Bool.not_eq_true] at hne
          have := (Bool.not_eq_true _).mp (fun hx => hne (Or.inl hx))
          simpa [List.isEmpty_iff] using this
        rw [hd]
        simp
    | false =>
      simp only [Bool.false_and, Bool.false_eq_true, if_false, Bool.not_false,
        Bool.true_and]
      by_cases hne : (!newly.isEmpty) = true
      · rw [if_pos hne]
        simp
      · rw [if_neg (by simpa using hne)]
        simp
  have hpre := hnewmem i
  have hdmem := hdelmem i
  refine ⟨?_, ?_, ?_⟩
  · rw [hED i, hpre, hpost]
    cases fe <;> simp only [Bool.false_eq_true, eq_self_iff_true, if_false, if_true, ite_true, ite_false] <;> omega
  · rw [hEND i, hdmem, hpost]
    cases fe with
    | true =>
      simp only [eq_self_iff_true, true_and, if_true, ite_true]
      omega
    | false =>
      simp only [Bool.false_eq_true, false_and, false_iff, if_false, ite_false]
      omega
  · rw [hED i, hEND i, hpre, hdmem, hpost]
    cases fe with
    | true =>
      simp only [eq_self_iff_true, true_and, if_true, ite_true]
      omega
    | false =>
      simp only [Bool.false_eq_true, false_and, or_false, if_false, ite_false]
      omega

end FileMatching

end Kapowarr


namespace Kapowarr

namespace Naming

open Paths

theorem natDigitsGo_spec : ∀ (fuel n : Nat), n ≤ fuel →
    digitsVal (natDigitsGo fuel n) = n := by
  intro fuel
  induction fuel with
  | zero =>
    intro n h
    have : n = 0 := by omega
    simp [this, natDigitsGo, digitsVal]
  | succ f ih =>
    intro n h
    by_cases h0 : n = 0
    · simp [h0, natDigitsGo, digitsVal]
    · rw [natDigitsGo, if_neg h0, digitsVal, ih (n / 10) (by omega)]
      omega

theorem natDigitsGo_lt : ∀ (fuel n : Nat), ∀ d ∈ natDigitsGo fuel n, d < 10 := by
  intro fuel
  induction fuel with
  | zero =>
    intro n d hd
    simp [natDigitsGo] at hd
  | succ f ih =>
    intro n d hd
    by_cases h0 : n = 0
    · simp [h0, natDigitsGo] at hd
    · rw [natDigitsGo, if_neg h0] at hd
      rcases List.mem_cons.mp hd with rfl | hd2
      · omega
      · exact ih _ d hd2

theorem digitChar_toNat (d : Nat) (hd : d < 10) : (digitChar d).toNat = 48 + d := by
  interval_cases d <;> decide

theorem map_digitChar_inj : ∀ (l1 l2 : List Nat),
    (∀ d ∈ l1, d < 10) → (∀ d ∈ l2, d < 10) →
    l1.map digitChar = l2.map digitChar → l1 = l2 := by
  intro l1
  induction l1 with
  | nil =>
    intro l2 _ _ h
    cases l2 with
    | nil => rfl
    | cons b bs => simp at h
  | cons a as ih =>
    intro l2 h1 h2 h
    cases l2 with
    | nil => simp at h
    | cons b bs =>
      simp only [List.map_cons, List.cons.injEq] at h
      have ha : a < 10 := h1 a (List.mem_cons_self a as)
      have hb : b < 10 := h2 b (List.mem_cons_self b bs)
      have hab : a = b := by
        have := congrArg Char.toNat h.1
        rw [digitChar_toNat a ha, digitChar_toNat b hb] at this
        omega
      rw [hab, ih bs (fun d hd => h1 d (List.mem_cons_of_mem a hd))
        (fun d hd => h2 d (List.mem_cons_of_mem b hd)) h.2]

theorem pyNatRepr_inj_pos (m n : Nat) (hm : 1 ≤ m) (hn : 1 ≤ n)
    (h : pyNatRepr m = pyNatRepr n) : m = n := by
  unfold pyNatRepr at h
  rw [if_neg (by omega), if_neg (by omega)] at h
  have hdata := congrArg String.data h
  simp only [String.data] at hdata
  have hrev := congrArg List.reverse hdata
  simp only [List.reverse_reverse] at hrev
  have hdig := map_digitChar_inj _ _ (natDigitsGo_lt m m) (natDigitsGo_lt n n) hrev
  have h1 := natDigitsGo_spec m m (le_refl m)
  have h2 := natDigitsGo_spec n n (le_refl n)
  rw [hdig] at h1
  omega

theorem pyNatRepr_ne_empty (n : Nat) : pyNatRepr n ≠ "" := by
  unfold pyNatRepr
  rcases n with _ | k
  · simp
  · rw [if_neg (by omega)]
    intro hc
    have hd := congrArg String.data hc
    simp only [String.data] at hd
    rw [natDigitsGo, if_neg (by omega)] at hd
    simp at hd

end Naming

end Kapowarr

namespace Kapowarr

namespace Naming

open Paths

theorem splitextData_join (l : List Char) :
    (splitextData l).1 ++ (splitextData l).2 = l := by
  unfold splitextData
  rcases h : rfindIdx '.' l with _ | d
  · simp
  · simp only
    split
    · split
      · simp [List.take_append_drop]
      · simp
    · simp

theorem splitext_join (p : String) :
    (splitext p).1.data ++ (splitext p).2.data = p.data := by
  unfold splitext
  simpa using splitextData_join p.data

theorem string_append_data (a b : String) : (a ++ b).data = a.data ++ b.data :=
  String.data_append a b

theorem sniCandidate_data (after : String) (i : Nat) :
    (sniCandidate after i).data
      = (splitext after).1.data
        ++ (" (".data ++ ((pyNatRepr i).data ++ (")".data ++ (splitext after).2.data))) := by
  unfold sniCandidate
  simp [string_append_data, List.append_assoc]

theorem sniCandidate_length (after : String) (i : Nat) :
    (sniCandidate after i).data.length
      = after.data.length + 3 + (pyNatRepr i).data.length := by
  rw [sniCandidate_data]
  simp only [List.length_append]
  have hj : (splitext after).1.data.length + (splitext after).2.data.length
      = after.data.length := by
    have h := congrArg List.length (splitext_join after)
    simpa [List.length_append] using h
  simp only [String.data, List.length_cons, List.length_nil]
  omega

theorem sniCandidate_ne_after (after : String) (i : Nat) :
    sniCandidate after i ≠ after := by
  intro hc
  have h1 := congrArg (fun s : String => s.data.length) hc
  simp only at h1
  rw [sniCandidate_length] at h1
  have h2 : (pyNatRepr i).data.length ≠ 0 := by
    intro h0
    exact pyNatRepr_ne_empty i (by
      have := List.length_eq_zero.mp h0
      exact String.ext this)
  omega

theorem sniCandidate_inj (after : String) (i j : Nat) (hi : 1 ≤ i) (hj : 1 ≤ j)
    (h : sniCandidate after i = sniCandidate after j) : i = j := by
  have hd := congrArg String.data h
  rw [sniCandidate_data, sniCandidate_data] at hd
  have h1 := List.append_cancel_left hd
  have h2 := List.append_cancel_left h1
  have h3 : (pyNatRepr i).data = (pyNatRepr j).data := by
    have hlen : (pyNatRepr i).data.length = (pyNatRepr j).data.length := by
      have := congrArg List.length h2
      simp only [List.length_append] at this
      omega
    exact List.append_inj_left h2 hlen
  exact pyNatRepr_inj_pos i j hi hj (String.ext h3)

theorem sniCandAt_injOn (after : String) (i j : Nat)
    (h : sniCandAt after i = sniCandAt after j) : i = j := by
  unfold sniCandAt at h
  by_cases h0 : i = 0 <;> by_cases h1 : j = 0
  · omega
  · rw [if_pos h0, if_neg h1] at h
    exact absurd h.symm (sniCandidate_ne_after after j)
  · rw [if_neg h0, if_pos h1] at h
    exact absurd h (sniCandidate_ne_after after i)
  · rw [if_neg h0, if_neg h1] at h
    exact sniCandidate_inj after i j (by omega) (by omega) h

end Naming

end Kapowarr

namespace Kapowarr

namespace Naming

theorem exists_free_candidate (after : String) (names : List String) :
    ∃ j, j < names.length + 2 ∧ names.contains (sniCandAt after j) = false := by
  by_contra hc
  push_neg at hc
  have hall : ∀ j ∈ Finset.range (names.length + 2),
      sniCandAt after j ∈ names.toFinset := by
    intro j hj
    have := hc j (Finset.mem_range.mp hj)
    rcases h2 : names.contains (sniCandAt after j) with _ | _
    · exact absurd h2 this
    · simpa using h2
  have hsub : (Finset.range (names.length + 2)).image (sniCandAt after)
      ⊆ names.toFinset := by
    intro x hx
    rcases Finset.mem_image.mp hx with ⟨j, hj, rfl⟩
    exact hall j hj
  have hcard : ((Finset.range (names.length + 2)).image (sniCandAt after)).card
      = names.length + 2 := by
    rw [Finset.card_image_of_injOn]
    · simp
    · intro i _ j _ hij
      exact sniCandAt_injOn after i j hij
  have hle := Finset.card_le_card hsub
  rw [hcard] at hle
  have := List.toFinset_card_le names
  omega

theorem sniResolveGo_spec (before after : String) (names : List String) :
    ∀ (fuel i : Nat),
      (∃ j, i ≤ j ∧ j < i + fuel
        ∧ (before = sniCandAt after j ∨ names.contains (sniCandAt after j) = false)) →
      (before = sniResolveGo before after names fuel i
        ∨ names.contains (sniResolveGo before after names fuel i) = false)
      ∧ ∃ k, sniResolveGo before after names fuel i = sniCandAt after k := by
  intro fuel
  induction fuel with
  | zero =>
    intro i ⟨j, hj1, hj2, _⟩
    omega
  | succ f ih =>
    intro i ⟨j, hj1, hj2, hj3⟩
    rw [sniResolveGo]
    by_cases hc : (before == sniCandAt after i || !(names.contains (sniCandAt after i))) = true
    · rw [if_pos hc]
      constructor
      · rcases Bool.or_eq_true _ _ |>.mp hc with h | h
        · exact Or.inl (by simpa using h)
        · exact Or.inr (by simpa using h)
      · exact ⟨i, rfl⟩
    · rw [if_neg hc]
      apply ih (i + 1)
      have hji : j ≠ i := by
        intro rfl2
        subst rfl2
        simp only [Bool.or_eq_true, beq_iff_eq, Bool.not_eq_true] at hc
        push_neg at hc
        rcases hj3 with h | h
        · exact hc.1 h
        · rw [h] at hc
          exact absurd rfl hc.2
      exact ⟨j, by omega, by omega, hj3⟩

theorem sniResolve_spec (before after : String) (names : List String) :
    (before = sniResolve before after names
      ∨ names.contains (sniResolve before after names) = false)
    ∧ ∃ k, sniResolve before after names = sniCandAt after k := by
  unfold sniResolve
  apply sniResolveGo_spec
  rcases exists_free_candidate after names with ⟨j, hj1, hj2⟩
  exact ⟨j, by omega, by omega, Or.inr hj2⟩

theorem sniResolveGo_shape (before after : String) (names : List String) :
    ∀ (fuel i : Nat), 1 ≤ i →
      sniResolveGo before after names fuel i = after
      ∨ ∃ k, 1 ≤ k ∧ sniResolveGo before after names fuel i = sniCandidate after k := by
  intro fuel
  induction fuel with
  | zero =>
    intro i _
    exact Or.inl rfl
  | succ f ih =>
    intro i hi
    rw [sniResolveGo]
    by_cases hc : (before == sniCandAt after i || !(names.contains (sniCandAt after i))) = true
    · rw [if_pos hc]
      right
      exact ⟨i, hi, by rw [sniCandAt, if_neg (by omega)]⟩
    · rw [if_neg hc]
      exact ih (i + 1) (by omega)

theorem sniResolve_suffixing (before after : String) (names : List String) :
    sniResolve before after names = after
    ∨ (names.contains after = true
      ∧ ∃ i, 1 ≤ i ∧ sniResolve before after names = sniCandidate after i) := by
  unfold sniResolve
  have h2 : names.length + 2 = (names.length + 1) + 1 := rfl
  rw [h2, sniResolveGo]
  by_cases hc : (before == sniCandAt after 0 || !(names.contains (sniCandAt after 0))) = true
  · rw [if_pos hc]
    left
    rw [sniCandAt, if_pos rfl]
  · rw [if_neg hc]
    have hmem : names.contains after = true := by
      have hafter : sniCandAt after 0 = after := by rw [sniCandAt, if_pos rfl]
      rw [hafter] at hc
      rcases h : names.contains after with _ | _
      · exfalso
        apply hc
        rw [h]
        simp
      · rfl
    rcases sniResolveGo_shape before after names (names.length + 1) 1 (by omega) with h | ⟨k, hk1, hk2⟩
    · exact Or.inl h
    · exact Or.inr ⟨hmem, k, hk1, hk2⟩

end Naming

end Kapowarr

namespace Kapowarr

namespace Naming

theorem sniGo_nodup : ∀ (planned : List (String × String)) (names : List String),
    (((sniGo names planned).filter (fun p => p.1 ≠ p.2)).map Prod.snd).Nodup
    ∧ ∀ v ∈ ((sniGo names planned).filter (fun p => p.1 ≠ p.2)).map Prod.snd,
        names.contains v = false := by
  intro planned
  induction planned with
  | nil =>
    intro names
    simp [sniGo]
  | cons p rest ih =>
    intro names
    rcases p with ⟨b, a⟩
    have hr := (sniResolve_spec b a names).1
    rcases ih (sniResolve b a names :: names) with ⟨ihn, ihc⟩
    have hsub : ∀ v ∈ ((sniGo (sniResolve b a names :: names) rest).filter
        (fun p => p.1 ≠ p.2)).map Prod.snd,
        v ≠ sniResolve b a names ∧ names.contains v = false := by
      intro v hv
      have h0 := ihc v hv
      rw [List.contains_cons] at h0
      have hor := Bool.or_eq_false_iff.mp h0
      constructor
      · intro hveq
        have := hor.1
        rw [hveq] at this
        simp at this
      · exact hor.2
    rw [sniGo]
    by_cases hbr : b = sniResolve b a names
    · rw [List.filter_cons, if_neg (by simpa using hbr)]
      refine ⟨ihn, ?_⟩
      intro v hv
      exact (hsub v hv).2
    · rw [List.filter_cons, if_pos (by simpa using hbr)]
      have hfree : names.contains (sniResolve b a names) = false := by
        rcases hr with h | h
        · exact absurd h hbr
        · exact h
      simp only [List.map_cons, List.nodup_cons]
      refine ⟨⟨?_, ihn⟩, ?_⟩
      · intro hmem
        exact absurd rfl (hsub _ hmem).1
      · intro v hv
        rcases List.mem_cons.mp hv with rfl | hv2
        · exact hfree
        · exact (hsub v hv2).2

theorem same_name_indexing_nodup (on_disk : List String)
    (planned : List (String × String)) :
    ((same_name_indexing true on_disk planned).map Prod.snd).Nodup
    ∧ ∀ v ∈ (same_name_indexing true on_disk planned).map Prod.snd,
        on_disk.contains v = false := by
  unfold same_name_indexing
  simp only [Bool.not_true, Bool.false_eq_true, if_false]
  exact sniGo_nodup planned on_disk

end Naming

end Kapowarr

namespace Kapowarr

namespace Paths

theorem rfindIdx_ge (c : Char) : ∀ (l : List Char) (k : Nat),
    l.get? k = some c → ∃ i, rfindIdx c l = some i ∧ k ≤ i := by
  intro l
  induction l with
  | nil =>
    intro k hk
    simp at hk
  | cons x xs ih =>
    intro k hk
    cases k with
    | zero =>
      simp only [List.get?] at hk
      rcases hr : rfindIdx c xs with _ | i
      · refine ⟨0, ?_, le_refl 0⟩
        rw [rfindIdx, hr]
        have hx : x = c := by injection hk
        simp [hx]
      · exact ⟨i + 1, by rw [rfindIdx, hr], by omega⟩
    | succ k2 =>
      simp only [List.get?] at hk
      rcases ih k2 hk with ⟨i, hi, hki⟩
      exact ⟨i + 1, by rw [rfindIdx, hi], by omega⟩

theorem rfindIdx_after (c : Char) : ∀ (l : List Char) (i : Nat),
    rfindIdx c l = some i → ∀ j, i < j → l.get? j ≠ some c := by
  intro l i hi j hj hc
  rcases rfindIdx_ge c l j hc with ⟨i2, hi2, hji2⟩
  rw [hi] at hi2
  have : i = i2 := by
    injection hi2
  omega

theorem prefix_take_of_le {p l : List Char} (h : p <+: l) (n : Nat)
    (hn : p.length ≤ n) : p <+: l.take n := by
  rcases h with ⟨t, rfl⟩
  rw [List.take_append_eq_append_take, List.take_of_length_le hn]
  exact List.prefix_append p _

theorem splitextData_fst_prefix (vf l : List Char)
    (h : vf ++ ['/'] <+: l) : vf ++ ['/'] <+: (splitextData l).1 := by
  have hget : l.get? vf.length = some '/' := by
    rcases h with ⟨t, ht⟩
    have hl : l = vf ++ ('/' :: t) := by
      rw [← ht]
      simp
    rw [hl, List.get?_append_right (le_refl vf.length)]
    simp
  rcases rfindIdx_ge '/' l vf.length hget with ⟨i0, hi0, hge⟩
  unfold splitextData
  rcases hd : rfindIdx '.' l with _ | d
  · exact h
  · simp only [hi0]
    by_cases hlt : ((i0 : ℤ) < (d : ℤ))
    · rw [if_pos hlt]
      split
      · apply prefix_take_of_le h
        simp only [List.length_append, List.length_cons, List.length_nil]
        omega
      · exact h
    · rw [if_neg hlt]
      exact h

end Paths

end Kapowarr

namespace Kapowarr

namespace Paths

theorem rfindIdx_get (c : Char) : ∀ (l : List Char) (i : Nat),
    rfindIdx c l = some i → l.get? i = some c := by
  intro l
  induction l with
  | nil =>
    intro i hi
    simp [rfindIdx] at hi
  | cons x xs ih =>
    intro i hi
    rw [rfindIdx] at hi
    rcases hr : rfindIdx c xs with _ | i2
    · rw [hr] at hi
      by_cases hx : x = c
      · rw [if_pos hx] at hi
        injection hi with hi2
        rw [← hi2]
        simpa using hx
      · rw [if_neg hx] at hi
        cases hi
    · rw [hr] at hi
      injection hi with hi2
      rw [← hi2]
      simpa using ih i2 hr

theorem rfindIdx_none (c : Char) (l : List Char) (h : rfindIdx c l = none) :
    c ∉ l := by
  intro hc
  rcases List.get?_of_mem hc with ⟨k, hk⟩
  rcases rfindIdx_ge c l k hk with ⟨i, hi, _⟩
  rw [h] at hi
  cases hi

theorem basename_no_slash (p : String) : '/' ∉ (basename p).data := by
  unfold basename
  rcases h : rfindIdx '/' p.data with _ | i
  · exact rfindIdx_none '/' p.data h
  · intro hc
    simp only [String.data] at hc
    rcases List.get?_of_mem hc with ⟨k, hk⟩
    rw [List.get?_drop] at hk
    exact rfindIdx_after '/' p.data i h (i + 1 + k) (by omega) hk

theorem splitextData_fst_sublist (l : List Char) : List.Sublist (splitextData l).1 l := by
  unfold splitextData
  rcases h : rfindIdx '.' l with _ | d
  · simp
  · simp only
    split
    · split
      · simp [List.take_sublist]
      · simp
    · simp

theorem splitextData_snd_shape (l : List Char) :
    (splitextData l).2 = [] ∨ ∃ t, (splitextData l).2 = '.' :: t := by
  unfold splitextData
  rcases h : rfindIdx '.' l with _ | d
  · simp
  · have hget := rfindIdx_get '.' l d h
    simp only
    split
    · split
      · right
        have hlt : d < l.length := by
          by_contra hge
          rw [List.get?_eq_none.mpr (by omega)] at hget
          cases hget
        refine ⟨(l.drop d).tail, ?_⟩
        have : l.drop d = '.' :: (l.drop d).tail := by
          have hhead : (l.drop d).head? = some '.' := by
            rw [List.head?_drop]
            simpa [← List.get?_eq_getElem?] using hget
          rcases hd : l.drop d with _ | ⟨x, xs⟩
          · rw [hd] at hhead
            cases hhead
          · rw [hd] at hhead
            injection hhead with hx
            rw [hx]
            simp
        simpa using this
      · simp
    · simp

theorem startsWithSlash_iff (s : String) :
    pyStartsWith s "/" = true ↔ ∃ t, s.data = '/' :: t := by
  unfold pyStartsWith
  rcases hd : s.data with _ | ⟨x, xs⟩
  · constructor
    · intro h
      simp [List.isPrefixOf] at h
    · rintro ⟨t, ht⟩
      cases ht
  · constructor
    · intro h
      simp only [show ("/").data = ['/'] from rfl, List.isPrefixOf] at h
      have hx : x = '/' := by
        rcases Bool.and_eq_true _ _ |>.mp h with ⟨h1, _⟩
        exact (beq_iff_eq.mp h1).symm
      exact ⟨xs, by rw [hx]⟩
    · rintro ⟨t, ht⟩
      injection ht with h1 h2
      rw [show ("/").data = ['/'] from rfl, List.isPrefixOf, h1]
      simp [List.isPrefixOf]

theorem no_slash_not_starts (s : String) (h : '/' ∉ s.data) :
    pyStartsWith s "/" = false := by
  rcases hp : pyStartsWith s "/" with _ | _
  · rfl
  · rcases (startsWithSlash_iff s).mp hp with ⟨t, ht⟩
    exact absurd (ht ▸ List.mem_cons_self '/' t) h

theorem append_not_starts (a b : String)
    (ha : pyStartsWith a "/" = false) (hb : pyStartsWith b "/" = false) :
    pyStartsWith (a ++ b) "/" = false := by
  rcases hp : pyStartsWith (a ++ b) "/" with _ | _
  · rfl
  · exfalso
    rcases (startsWithSlash_iff _).mp hp with ⟨t, ht⟩
    rw [String.data_append] at ht
    rcases hd : a.data with _ | ⟨x, xs⟩
    · rw [hd, List.nil_append] at ht
      rw [(startsWithSlash_iff b).mpr ⟨t, ht⟩] at hb
      cases hb
    · rw [hd] at ht
      injection ht with h1 _
      rw [(startsWithSlash_iff a).mpr ⟨xs, by rw [hd, h1]⟩] at ha
      cases ha

theorem append_not_starts_left (a b : String)
    (ha : pyStartsWith a "/" = false) (h0 : a ≠ "") :
    pyStartsWith (a ++ b) "/" = false := by
  rcases hp : pyStartsWith (a ++ b) "/" with _ | _
  · rfl
  · exfalso
    rcases (startsWithSlash_iff _).mp hp with ⟨t, ht⟩
    rw [String.data_append] at ht
    rcases hd : a.data with _ | ⟨x, xs⟩
    · exact h0 (String.ext (by simp [hd]))
    · rw [hd] at ht
      injection ht with h1 _
      rw [(startsWithSlash_iff a).mpr ⟨xs, by rw [hd, h1]⟩] at ha
      cases ha

theorem pyJoin_not_starts (a b : String)
    (ha : pyStartsWith a "/" = false) (hb : pyStartsWith b "/" = false) :
    pyStartsWith (pyJoin a b) "/" = false := by
  unfold pyJoin
  rw [if_neg (by simp [hb])]
  by_cases h0 : a = ""
  · rw [if_pos h0]
    exact hb
  · rw [if_neg h0]
    by_cases h1 : pyEndsWith a "/" = true
    · rw [if_pos h1]
      exact append_not_starts_left a b ha h0
    · rw [if_neg h1]
      exact append_not_starts_left _ b (append_not_starts_left a "/" ha h0)
        (by
          intro hc
          have := congrArg String.data hc
          rw [String.data_append] at this
          rcases hd : a.data with _ | ⟨x, xs⟩
          · exact h0 (String.ext (by simp [hd]))
          · rw [hd] at this
            simp at this)

theorem pyJoin_prefix (a b : String) (hb : pyStartsWith b "/" = false)
    (ha0 : a ≠ "") (hae : pyEndsWith a "/" = false) :
    (a ++ "/").data <+: (pyJoin a b).data := by
  unfold pyJoin
  rw [if_neg (by simp [hb]), if_neg ha0, if_neg (by simp [hae])]
  rw [String.data_append]
  exact List.prefix_append _ _

end Paths

end Kapowarr

namespace Kapowarr

namespace Naming

open Paths

theorem stem_of_basename_not_starts (file : String) :
    pyStartsWith (String.mk (splitextData (basename file).data).1) "/" = false := by
  apply no_slash_not_starts
  intro hc
  exact basename_no_slash file
    (List.Sublist.mem hc (splitextData_fst_sublist (basename file).data))

theorem splitext_snd_lower_not_starts (file : String) :
    pyStartsWith (pyLower (splitext file).2) "/" = false := by
  rcases splitextData_snd_shape file.data with h | ⟨t, ht⟩
  · apply no_slash_not_starts
    show '/' ∉ ((splitext file).2.data.map Char.toLower)
    have hnil : (splitext file).2.data = [] := by
      unfold splitext
      simpa using h
    rw [hnil]
    simp
  · have hdata : (splitext file).2.data = '.' :: t := by
      unfold splitext
      simpa using ht
    have hdata2 : (pyLower (splitext file).2).data = '.' :: t.map Char.toLower := by
      show ((splitext file).2.data.map Char.toLower) = _
      rw [hdata, List.map_cons, show Char.toLower '.' = '.' from by decide]
    rcases hp : pyStartsWith (pyLower (splitext file).2) "/" with _ | _
    · rfl
    · exfalso
      rcases (startsWithSlash_iff _).mp hp with ⟨u, hu⟩
      rw [hdata2] at hu
      injection hu with h1 _
      cases h1

end Naming

end Kapowarr

namespace Kapowarr

namespace Naming

open Paths

theorem previewBody_not_starts (env : PreviewEnv) (file : String)
    (hgen : ∀ sv arg, pyStartsWith (env.genIssueName sv arg) "/" = false)
    (himg : ∀ f, pyStartsWith (env.genImageName f) "/" = false) :
    pyStartsWith (previewBody env file) "/" = false := by
  unfold previewBody
  have hstem : pyStartsWith (splitext (basename file)).1 "/" = false := by
    have := stem_of_basename_not_starts file
    unfold splitext at *
    simpa using this
  have hbody0 : ∀ issues : List ℚ, pyStartsWith
      (match issues with
      | [] =>
        if endsWithAny file env.imageExtensions then
          env.genIssueName SpecialVersion.cover none
        else (splitext (basename file)).1
      | [i1] =>
        let b := env.genIssueName env.specialVersion (some (Sum.inl i1))
        if env.metadataFiles.contains (basename (pyLower file)) then
          b ++ " " ++ (splitext (basename file)).1
        else b
      | i1 :: i2 :: rest =>
        env.genIssueName env.specialVersion
          (some (Sum.inr (i1, List.getLastD (i2 :: rest) i1)))) "/" = false := by
    intro issues
    rcases issues with _ | ⟨i1, _ | ⟨i2, rest⟩⟩
    · dsimp only
      by_cases hi : endsWithAny file env.imageExtensions = true
      · rw [if_pos hi]
        exact hgen _ _
      · rw [if_neg hi]
        exact hstem
    · dsimp only
      by_cases hm : env.metadataFiles.contains (basename (pyLower file)) = true
      · rw [if_pos hm]
        exact append_not_starts _ _ (append_not_starts _ _ (hgen _ _) (by decide)) hstem
      · rw [if_neg hm]
        exact hgen _ _
    · dsimp only
      exact hgen _ _
  by_cases hj : (!(env.issuesCovered file).isEmpty
      && endsWithAny file env.imageExtensions) = true
  · rw [if_pos hj]
    exact pyJoin_not_starts _ _ (hbody0 _) (himg file)
  · rw [if_neg hj]
    exact hbody0 _

theorem previewSuggested_prefix (env : PreviewEnv) (vf file : String)
    (hgen : ∀ sv arg, pyStartsWith (env.genIssueName sv arg) "/" = false)
    (himg : ∀ f, pyStartsWith (env.genImageName f) "/" = false)
    (h0 : vf ≠ "") (he : pyEndsWith vf "/" = false) :
    (vf ++ "/").data <+: (previewSuggested env vf file).data := by
  unfold previewSuggested
  apply pyJoin_prefix
  · by_cases hb : previewBody env file = ""
    · rw [hb]
      have : ("" : String) ++ pyLower (splitext file).2 = pyLower (splitext file).2 := by
        apply String.ext
        rw [String.data_append]
        simp
      rw [this]
      exact splitext_snd_lower_not_starts file
    · exact append_not_starts_left _ _ (previewBody_not_starts env file hgen himg) hb
  · exact h0
  · exact he

theorem sniCandidate_prefix (vf : String) (a : String) (i : Nat)
    (h : (vf ++ "/").data <+: a.data) :
    (vf ++ "/").data <+: (sniCandidate a i).data := by
  have hvf : (vf ++ "/").data = vf.data ++ ['/'] := by
    rw [String.data_append]
  have hs : (vf ++ "/").data <+: (splitext a).1.data := by
    rw [hvf] at h ⊢
    have := splitextData_fst_prefix vf.data a.data h
    unfold splitext
    simpa using this
  rw [sniCandidate_data]
  exact hs.trans (List.prefix_append _ _)

theorem sniCandAt_prefix (vf : String) (a : String) (i : Nat)
    (h : (vf ++ "/").data <+: a.data) :
    (vf ++ "/").data <+: (sniCandAt a i).data := by
  unfold sniCandAt
  by_cases h0 : i = 0
  · rw [if_pos h0]
    exact h
  · rw [if_neg h0]
    exact sniCandidate_prefix vf a i h

theorem sniGo_preserve (P : String → Prop)
    (hP : ∀ a k, P a → P (sniCandAt a k)) :
    ∀ (planned : List (String × String)) (names : List String),
      (∀ p ∈ planned, P p.2) → ∀ q ∈ sniGo names planned, P q.2 := by
  intro planned
  induction planned with
  | nil =>
    intro names _ q hq
    simp [sniGo] at hq
  | cons p rest ih =>
    intro names hpl q hq
    rcases p with ⟨b, a⟩
    rw [sniGo] at hq
    rcases List.mem_cons.mp hq with rfl | hq2
    · rcases (sniResolve_spec b a names).2 with ⟨k, hk⟩
      show P (sniResolve b a names)
      rw [hk]
      exact hP a k (hpl (b, a) (List.mem_cons_self _ _))
    · exact ih _ (fun p2 hp2 => hpl p2 (List.mem_cons_of_mem _ hp2)) q hq2

theorem same_name_indexing_preserve (P : String → Prop)
    (hP : ∀ a k, P a → P (sniCandAt a k))
    (isdir : Bool) (on_disk : List String) (planned : List (String × String))
    (h : ∀ p ∈ planned, P p.2) :
    ∀ q ∈ same_name_indexing isdir on_disk planned, P q.2 := by
  unfold same_name_indexing
  cases isdir with
  | false =>
    simpa using h
  | true =>
    simp only [Bool.not_true, Bool.false_eq_true, if_false]
    intro q hq
    exact sniGo_preserve P hP planned on_disk h q (List.mem_of_mem_filter hq)

end Naming

end Kapowarr

namespace Kapowarr

namespace Naming

open Paths

/-- C2, counterexample.  When the volume folder is not a directory,
`preview_mass_rename` skips `same_name_indexing` entirely, so two database
files generating the same name keep identical planned targets: the claimed
distinctness fails. -/
theorem preview_mass_rename_duplicate_targets_cex :
    (preview_mass_rename cexRenameEnv false []).1
      = [("/old/a.cbz", "/vol/Name.cbz"), ("/old/b.cbz", "/vol/Name.cbz")]
    ∧ ¬ ((preview_mass_rename cexRenameEnv false []).1.map Prod.snd).Nodup
    ∧ cexRenameEnv.isdir cexRenameEnv.volumeFolder = false :=
  ⟨by decide, by decide, rfl⟩

/-- C2, amended.  Provided the volume folder exists as a directory,
`preview_mass_rename` produces pairwise-distinct targets that also avoid
every name already on disk in that folder; every planned target lies under
the volume folder whenever the name oracles return relative bodies (as
`make_filename_safe` guarantees) and the folder itself is a normal absolute
path; and deduplication only ever suffixes ` (i)` with `i ≥ 1` before the
extension of a clashing name, leaving non-clashing names unchanged. -/
theorem preview_mass_rename_collision_free_amended
    (env : PreviewEnv) (issueGiven : Bool) (fpf : List String) :
    (env.isdir (previewTargetFolder env issueGiven) = true →
      (((preview_mass_rename env issueGiven fpf).1.map Prod.snd).Nodup
       ∧ ∀ v ∈ (preview_mass_rename env issueGiven fpf).1.map Prod.snd,
           (env.listFiles (previewTargetFolder env issueGiven)).contains v = false))
    ∧ ((∀ sv arg, pyStartsWith (env.genIssueName sv arg) "/" = false) →
       (∀ f, pyStartsWith (env.genImageName f) "/" = false) →
       previewTargetFolder env issueGiven ≠ "" →
       pyEndsWith (previewTargetFolder env issueGiven) "/" = false →
       ∀ p ∈ (preview_mass_rename env issueGiven fpf).1,
         (previewTargetFolder env issueGiven ++ "/").data <+: p.2.data)
    ∧ (∀ before after names,
        sniResolve before after names = after
        ∨ (names.contains after = true
          ∧ ∃ i, 1 ≤ i ∧ sniResolve before after names = sniCandidate after i)) := by
  refine ⟨?_, ?_, fun b a n => sniResolve_suffixing b a n⟩
  · intro hdir
    unfold preview_mass_rename
    by_cases hemp : (!issueGiven && (previewFiles env fpf).isEmpty) = true
    · rw [if_pos hemp]
      simp
    · rw [if_neg hemp]
      dsimp only
      rw [hdir]
      exact same_name_indexing_nodup _ _
  · intro hgen himg h0 he p hp
    have hplanned : ∀ q ∈ previewPlanned env issueGiven fpf,
        (previewTargetFolder env issueGiven ++ "/").data <+: q.2.data := by
      intro q hq
      rcases List.mem_filterMap.mp hq with ⟨file, _, heq⟩
      split at heq
      · dsimp only at heq
        split at heq
        · injection heq with heq2
          rw [← heq2]
          exact previewSuggested_prefix env _ file hgen himg h0 he
        · cases heq
      · cases heq
    unfold preview_mass_rename at hp
    by_cases hemp : (!issueGiven && (previewFiles env fpf).isEmpty) = true
    · rw [if_pos hemp] at hp
      simp at hp
    · rw [if_neg hemp] at hp
      dsimp only at hp
      exact same_name_indexing_preserve
        (fun s => (previewTargetFolder env issueGiven ++ "/").data <+: s.data)
        (fun a k hk => sniCandAt_prefix _ a k hk)
        (env.isdir (previewTargetFolder env issueGiven))
        (env.listFiles (previewTargetFolder env issueGiven))
        (previewPlanned env issueGiven fpf) hplanned p hp

/-- Witness for the amended C2 theorem at the concrete environment
`cexRenameEnvDir`. -/
theorem preview_mass_rename_collision_free_amended_witness :
    (((preview_mass_rename cexRenameEnvDir false []).1.map Prod.snd).Nodup
     ∧ ∀ v ∈ (preview_mass_rename cexRenameEnvDir false []).1.map Prod.snd,
         (cexRenameEnvDir.listFiles (previewTargetFolder cexRenameEnvDir false)).contains v
           = false)
    ∧ ∀ p ∈ (preview_mass_rename cexRenameEnvDir false []).1,
        (previewTargetFolder cexRenameEnvDir false ++ "/").data <+: p.2.data :=
  ⟨(preview_mass_rename_collision_free_amended cexRenameEnvDir false []).1 rfl,
   (preview_mass_rename_collision_free_amended cexRenameEnvDir false []).2.1
     (fun _ _ => rfl) (fun _ => rfl) (by decide) rfl⟩

end Naming

end Kapowarr
